import Mathlib

/-!
Verification development for the ReaderStudio repository: a shallow
embedding of its fuzzy identity-resolution and text-anchoring core
(similarity scorer, entity matcher, duplicate/edition resolver, text
anchor locator, document merge writer) together with proofs of the
behavioural properties stated in the specification.

Python strings are modelled as `List Char`; Python floats arising from
similarity ratios are modelled as exact rationals (`ℚ`); file bytes are
modelled as `List Nat`.  External collaborators (the `rapidfuzz` scorer,
Calibre metadata extraction, `datetime.strptime`, format conversion
tools, the MD5 digest) are abstracted as function parameters, while
everything the repository itself computes is embedded concretely.
-/

namespace ReaderStudio

/-! ## Python string primitives -/

/-- Python whitespace characters (the ASCII portion of `\s` / `str.strip`). -/
def isPySpace (c : Char) : Bool :=
  c = ' ' || c = '\t' || c = '\n' || c = '\r' || c = '\x0b' || c = '\x0c'

/-- Python regex `\w` (ASCII portion): letters, digits and underscore. -/
def isWordChar (c : Char) : Bool :=
  c.isAlphanum || c = '_'

/-- `str.lower()` on ASCII text. -/
def toLowerL (l : List Char) : List Char := l.map Char.toLower

/-- `str.strip()`: drop whitespace from both ends. -/
def stripL (l : List Char) : List Char :=
  ((l.dropWhile isPySpace).reverse.dropWhile isPySpace).reverse

/-- `str.split('\n')`: split on every newline, keeping empty parts. -/
def splitNl (l : List Char) : List (List Char) :=
  l.foldr (fun c acc =>
    if c = '\n' then [] :: acc
    else (c :: acc.headI) :: acc.tail) [[]]

/-- `'\n'.join(lines)`. -/
def joinNl (ls : List (List Char)) : List Char :=
  (ls.intersperse ['\n']).flatten

theorem dropWhile_len_le (p : Char → Bool) (l : List Char) :
    (l.dropWhile p).length ≤ l.length := by
  induction l with
  | nil => simp [List.dropWhile]
  | cons c t ih =>
    by_cases h : p c
    · simp only [List.dropWhile, h]
      exact Nat.le_trans ih (Nat.le_succ _)
    · simp [List.dropWhile, h]

/-- Accumulator loop behind `splitWs` (structural, so that concrete
witnesses evaluate inside the kernel). -/
def splitWsGo : List Char → List Char → List (List Char)
  | [], acc => if acc = [] then [] else [acc.reverse]
  | c :: t, acc =>
    if isPySpace c then
      if acc = [] then splitWsGo t [] else acc.reverse :: splitWsGo t []
    else splitWsGo t (c :: acc)

/-- `str.split()` (no argument): split on runs of whitespace, no empty parts. -/
def splitWs (l : List Char) : List (List Char) :=
  splitWsGo l []

/-- `str.split(sep)` for a single-character separator, keeping empty parts. -/
def splitOnChar (sep : Char) (l : List Char) : List (List Char) :=
  l.foldr (fun c acc =>
    if c = sep then [] :: acc
    else (c :: acc.headI) :: acc.tail) [[]]

/-- Substring test, Python `needle in hay`. -/
def containsSub (hay needle : List Char) : Bool :=
  (List.range (hay.length + 1)).any fun i => (hay.drop i).take needle.length = needle

/-- First index at which `needle` occurs in `hay` (Python `re.search` of a
literal, or `str.find`). -/
def findSub (hay needle : List Char) : Option Nat :=
  (List.range (hay.length + 1)).find? fun i => (hay.drop i).take needle.length = needle

/-! ## `difflib.SequenceMatcher` (no junk, as invoked by the repository)

The repository always constructs `SequenceMatcher(None, a, b)` on short
strings, so the junk and autojunk mechanisms are inert; the matcher then
computes maximal common contiguous blocks (ties resolved towards the
earliest position in `a`, then in `b`) and `ratio() = 2*M/T` where `M` is
the total size of the matched blocks and `T` the combined length
(`1.0` when both strings are empty). -/

/-- Length of the longest common prefix of two lists. -/
def commonRunLen : List Char → List Char → Nat
  | a :: as, b :: bs => if a = b then commonRunLen as bs + 1 else 0
  | _, _ => 0

/-- `SequenceMatcher.find_longest_match` on the slices `a[alo:ahi]`,
`b[blo:bhi]`: the `(i, j, k)` with maximal `k` such that
`a[i:i+k] == b[j:j+k]`, earliest `i` then earliest `j` on ties. -/
def findLongestMatch (a b : List Char) (alo ahi blo bhi : Nat) : Nat × Nat × Nat :=
  (List.range (ahi - alo)).foldl (fun best di =>
    (List.range (bhi - blo)).foldl (fun best dj =>
      let i := alo + di
      let j := blo + dj
      let k := min (commonRunLen (a.drop i) (b.drop j)) (min (ahi - i) (bhi - j))
      if best.2.2 < k then (i, j, k) else best) best) (alo, blo, 0)

/-- Recursive block collection of `get_matching_blocks` (fuel-indexed; the
fuel `a.length + b.length + 1` always suffices because the spanned slice
sizes strictly shrink). -/
def matchingBlocksAux (a b : List Char) :
    Nat → Nat → Nat → Nat → Nat → List (Nat × Nat × Nat)
  | 0, _, _, _, _ => []
  | fuel + 1, alo, ahi, blo, bhi =>
    let m := findLongestMatch a b alo ahi blo bhi
    if m.2.2 = 0 then []
    else
      matchingBlocksAux a b fuel alo m.1 blo m.2.1 ++ [m] ++
        matchingBlocksAux a b fuel (m.1 + m.2.2) ahi (m.2.1 + m.2.2) bhi

/-- `SequenceMatcher.get_matching_blocks`, including the terminating
zero-size block `(len(a), len(b), 0)`. -/
def getMatchingBlocks (a b : List Char) : List (Nat × Nat × Nat) :=
  matchingBlocksAux a b (a.length + b.length + 1) 0 a.length 0 b.length ++
    [(a.length, b.length, 0)]

/-- `SequenceMatcher.ratio()`. -/
def sequenceRatio (a b : List Char) : ℚ :=
  let m : Nat := ((getMatchingBlocks a b).map (fun t => t.2.2)).sum
  let total : Nat := a.length + b.length
  if total = 0 then 1 else (2 * m : ℚ) / total

/-! ## `BookProcessor._calculate_similarity` (src/src/processor/book_processor.py) -/

/-- `re.sub(r'[^\w\s]', '', s)`: delete every character that is neither a
word character nor whitespace. -/
def stripPunct (l : List Char) : List Char :=
  l.filter fun c => isWordChar c || isPySpace c

/-- The normalization both comparison sides receive: lowercase then strip
punctuation. -/
def cleanForSim (l : List Char) : List Char := stripPunct (toLowerL l)

/-- `len(set1 & set2) / max(len(set1), len(set2)) if set1 and set2 else 0`
on the word lists (sets modelled by deduplicated lists). -/
def wordSetOverlap (ws1 ws2 : List (List Char)) : ℚ :=
  let w1 := ws1.dedup
  let w2 := ws2.dedup
  if w1 ≠ [] ∧ w2 ≠ [] then
    ((w1.filter (fun w => w ∈ w2)).length : ℚ) / (max w1.length w2.length : ℕ)
  else 0

/-- `BookProcessor._calculate_similarity`: guard on empty inputs, normalize,
then average the `SequenceMatcher` ratio and the word-set overlap. -/
def calculateSimilarity (str1 str2 : List Char) : ℚ :=
  if str1 = [] ∨ str2 = [] then 0
  else
    let s1 := cleanForSim str1
    let s2 := cleanForSim str2
    let sequenceSim := sequenceRatio s1 s2
    let wordSim := wordSetOverlap (splitWs s1) (splitWs s2)
    (sequenceSim + wordSim) / 2

/-- Character-ratio component of the scorer on the normalized strings
(named separately so the combined-score claims can refer to it). -/
def charRatioComponent (str1 str2 : List Char) : ℚ :=
  sequenceRatio (cleanForSim str1) (cleanForSim str2)

/-- Word-overlap component of the scorer on the normalized strings. -/
def wordOverlapComponent (str1 str2 : List Char) : ℚ :=
  wordSetOverlap (splitWs (cleanForSim str1)) (splitWs (cleanForSim str2))

/-! ## `BookProcessor.find_matching_markdown` -/

/-- Accumulator loop behind `tokenRuns`. -/
def tokenRunsGo (keep : Char → Bool) : List Char → List Char → List (List Char)
  | [], acc => if acc = [] then [] else [acc.reverse]
  | c :: t, acc =>
    if keep c then tokenRunsGo keep t (c :: acc)
    else if acc = [] then tokenRunsGo keep t []
    else acc.reverse :: tokenRunsGo keep t []

/-- Maximal runs of characters satisfying `keep` (`re.findall(r'\w+', s)`
is `tokenRuns isWordChar s`). -/
def tokenRuns (keep : Char → Bool) (l : List Char) : List (List Char) :=
  tokenRunsGo keep l []

/-- A markdown directory as the matcher sees it: its name, whether the
path is a directory, and the names of the files it contains. -/
structure MDirEntry where
  name : List Char
  isDir : Bool
  files : List (List Char)
deriving Repr, DecidableEq

/-- Python `str.endswith`. -/
def endsWithL (l suf : List Char) : Bool :=
  suf.length ≤ l.length && l.drop (l.length - suf.length) = suf

/-- The combined score `find_matching_markdown` assigns to one directory
name: `max(direct*0.4 + word*0.6, title_only*0.4 + word*0.6)`. -/
def mdDirScore (searchTitle titleLower dirName : List Char) : ℚ :=
  let direct := calculateSimilarity searchTitle dirName
  let titleOnly := calculateSimilarity titleLower dirName
  let wordScore := wordSetOverlap (tokenRuns isWordChar searchTitle) (tokenRuns isWordChar dirName)
  max (direct * (2/5) + wordScore * (3/5)) (titleOnly * (2/5) + wordScore * (3/5))

/-- The best-candidate fold of `BookProcessor.find_matching_markdown`:
accept a directory only when its score beats the incumbent and strictly
exceeds 0.7. -/
def mdDirBest (searchTitle titleLower : List Char) (dirs : List MDirEntry) :
    ℚ × Option MDirEntry :=
  dirs.foldl (fun st d =>
    if !d.isDir then st
    else
      let score := mdDirScore searchTitle titleLower (toLowerL d.name)
      if st.1 < score ∧ (7/10 : ℚ) < score then (score, some d) else st)
    (0, none)

/-- The lowered query string `"author - title"` (or bare title) the
matcher searches with. -/
def searchTitleOf (title : List Char) (author : Option (List Char)) : List Char :=
  toLowerL (match author with
    | some a => a ++ (' ' :: '-' :: ' ' :: title)
    | none => title)

/-- `BookProcessor.find_matching_markdown(title=…, author=…)`: returns the
matched directory name and main markdown file name, or `none`. -/
def findMatchingMarkdownBP (title : List Char) (author : Option (List Char))
    (dirs : List MDirEntry) : Option (List Char × List Char) :=
  if title = [] then none
  else
    match (mdDirBest (searchTitleOf title author) (toLowerL title) dirs).2 with
    | none => none
    | some d =>
      let firstMd := (d.files.filter fun f => endsWithL f ['.', 'm', 'd']).head?
      let mainCandidates :=
        ['i', 'n', 'd', 'e', 'x', '.', 'm', 'd'] :: (d.name ++ ['.', 'm', 'd']) ::
          (match firstMd with | some f => [f] | none => [])
      match mainCandidates.find? (fun c => c ∈ d.files) with
      | some c => some (d.name, c)
      | none => none

/-! ## `BookProcessor._find_duplicate_by_metadata`

`rapidfuzz.fuzz.ratio` is an external collaborator producing a score on
the 0–100 scale; it is abstracted as the parameter `fuzzR`. -/

/-- One existing landing page as the duplicate resolver sees it. -/
structure DupCandidate where
  title : List Char
  author : List Char
  page : List Char
deriving Repr, DecidableEq

/-- The combined 0–100 score the code computes for one candidate
(`title*0.7 + author*0.3` when both authors are present and the title
score exceeds 60; raw title score when authors are present but the title
score is at most 60; title-only gated at 90 when an author is missing;
boosted to at least `title*0.9` when the title score exceeds 95). -/
def dupCombinedCode (fuzzR : List Char → List Char → ℚ)
    (t a et ea : List Char) : ℚ :=
  let titleScore := fuzzR t et
  let combined :=
    if ea ≠ [] ∧ a ≠ [] then
      if 60 < titleScore then
        titleScore * (7/10) + fuzzR a ea * (3/10)
      else titleScore
    else if 90 < titleScore then titleScore else 0
  if 95 < titleScore then max combined (titleScore * (9/10)) else combined

/-- Modelled from the spec: the combining rule exactly as §4.3 words it —
`title*0.7 + author*0.3` when both authors are present **and** title
similarity exceeds 60, otherwise title-only valid only above 90, with the
same boost.  Kept separate from `dupCombinedCode` so the two can be
compared. -/
def dupCombinedSpec (fuzzR : List Char → List Char → ℚ)
    (t a et ea : List Char) : ℚ :=
  let titleScore := fuzzR t et
  let combined :=
    if ea ≠ [] ∧ a ≠ [] ∧ 60 < titleScore then
      titleScore * (7/10) + fuzzR a ea * (3/10)
    else if 90 < titleScore then titleScore else 0
  if 95 < titleScore then max combined (titleScore * (9/10)) else combined

/-- The candidate fold shared by the resolver: track the best candidate
whose combined score beats the incumbent and reaches the threshold 85;
candidates whose normalized existing title is empty are skipped. -/
def dupFold (score : DupCandidate → ℚ) (cands : List DupCandidate) :
    ℚ × Option (List Char) :=
  cands.foldl (fun st c =>
    if stripL (toLowerL c.title) = [] then st
    else if st.1 < score c ∧ (85 : ℚ) ≤ score c then (score c, some c.page)
    else st) (0, none)

/-- `BookProcessor._find_duplicate_by_metadata`. -/
def findDuplicateByMetadata (fuzzR : List Char → List Char → ℚ)
    (title author : List Char) (cands : List DupCandidate) :
    Option (List Char) :=
  if title = [] ∨ author = [] ∨ cands = [] then none
  else
    let t := stripL (toLowerL title)
    let a := stripL (toLowerL author)
    (dupFold (fun c =>
      dupCombinedCode fuzzR t a (stripL (toLowerL c.title)) (stripL (toLowerL c.author)))
      cands).2

/-- Modelled from the spec: the resolver with the spec-worded combining
rule, for comparison with `findDuplicateByMetadata`. -/
def findDuplicateSpec (fuzzR : List Char → List Char → ℚ)
    (title author : List Char) (cands : List DupCandidate) :
    Option (List Char) :=
  if title = [] ∨ author = [] ∨ cands = [] then none
  else
    let t := stripL (toLowerL title)
    let a := stripL (toLowerL author)
    (dupFold (fun c =>
      dupCombinedSpec fuzzR t a (stripL (toLowerL c.title)) (stripL (toLowerL c.author)))
      cands).2

/-! ## `AnnotationSyncer` (src/src/processor/annotation_syncer.py) -/

/-- `re.sub(r'[*_`~#>]+', '', content)`: delete markdown formatting
characters (the character class is star, underscore, backtick, tilde,
hash, greater-than). -/
def removeMd (l : List Char) : List Char :=
  l.filter fun c =>
    !(c = '*' || c = '_' || c = Char.ofNat 96 || c = '~' || c = '#' || c = '>')

/-- `' '.join(ws)`. -/
def joinSpace (ls : List (List Char)) : List Char :=
  (ls.intersperse [' ']).flatten

/-- `AnnotationSyncer._get_substrings`: sliding word windows of 4–11 words,
kept when at least `minLength` characters long. -/
def getSubstrings (text : List Char) (minLength : Nat := 20) : List (List Char) :=
  let words := splitWs text
  ((List.range (min 12 words.length - 4)).map (· + 4)).flatMap fun chunkSize =>
    (List.range (words.length - chunkSize + 1)).filterMap fun i =>
      let chunk := joinSpace ((words.drop i).take chunkSize)
      if minLength ≤ chunk.length then some chunk else none

/-- The per-line fuzzy score of `_find_text_in_markdown`: the
`SequenceMatcher` ratio, raised by the word-chunk substring alternative
`len(substring)/len(main_search)` when both sides exceed 40 characters. -/
def lineScore (mainSearch line : List Char) : ℚ :=
  let ratio := sequenceRatio mainSearch line
  if 40 < mainSearch.length ∧ 40 < line.length then
    (getSubstrings mainSearch).foldl (fun r s =>
      if s.length < 20 then r
      else if containsSub line s then max r ((s.length : ℚ) / mainSearch.length)
      else r) ratio
  else ratio

/-- The context dictionary returned with a match. -/
structure MatchCtx where
  pre : List Char
  line : List Char
  suf : List Char
  matchRatio : Option ℚ
deriving Repr, DecidableEq

/-- The fuzzy-search fold: track the best line of length at least 10 whose
score strictly exceeds the running best (which starts at the 0.8
threshold). -/
def fuzzyBest (mainSearch : List Char) (cleanLines : List (List Char)) :
    ℚ × Option (Nat × List Char) :=
  cleanLines.enum.foldl (fun st p =>
    if p.2.length < 10 then st
    else
      let r := lineScore mainSearch p.2
      if st.1 < r then (r, some (p.1, p.2)) else st) ((4/5 : ℚ), none)

/-- `AnnotationSyncer._find_text_in_markdown`: exact substring search over
the markdown-stripped lines first, then the fuzzy fold. -/
def findTextInMarkdown (searchText content : List Char) :
    Option (Nat × List Char × MatchCtx) :=
  if searchText = [] ∨ content = [] then none
  else
    let sText := stripL searchText
    let mainSearch := (splitNl sText).headI
    let cleanContent := removeMd content
    let contentLines := splitNl content
    let cleanLines := splitNl cleanContent
    match cleanLines.enum.find? (fun p => containsSub p.2 sText) with
    | some (i, line) =>
      some (i, contentLines.getD i [],
        ⟨if 0 < i then cleanLines.getD (i - 1) [] else [], line,
         if i < cleanLines.length - 1 then cleanLines.getD (i + 1) [] else [], none⟩)
    | none =>
      let best := fuzzyBest mainSearch cleanLines
      match best.2 with
      | some (i, line) =>
        some (i, contentLines.getD i [],
          ⟨if 0 < i then cleanLines.getD (i - 1) [] else [], line,
           if i < cleanLines.length - 1 then cleanLines.getD (i + 1) [] else [],
           some best.1⟩)
      | none => none

/-- `re.search(r'\^([a-zA-Z0-9]+)$', line)`: the trailing anchor token of a
line — a caret followed by one or more alphanumerics at line end. -/
def trailingAnchor (line : List Char) : Option (List Char) :=
  let rev := line.reverse
  let suf := rev.takeWhile Char.isAlphanum
  if suf ≠ [] ∧ (rev.drop suf.length).head? = some '^' then some suf.reverse
  else none

/-- `AnnotationSyncer._ensure_block_id`, with the freshly generated UUID
fragment (`uuid.uuid4().hex[:10]`) supplied as the parameter `newId`.
Returns `(block_id, content, was_updated)`. -/
def ensureBlockId (content : List Char) (matchIndex : Nat) (newId : List Char) :
    List Char × List Char × Bool :=
  let lines := splitNl content
  if lines.length ≤ matchIndex then ([], content, false)
  else
    let cur := lines.getD matchIndex []
    match trailingAnchor cur with
    | some bid => (bid, content, false)
    | none =>
      let updated := lines.set matchIndex (cur ++ (' ' :: '^' :: newId))
      (newId, joinNl updated, true)

/-- The first maximal-size block of `blocks` (Python
`max(blocks, key=lambda b: b.size)`). -/
def maxBlock (blocks : List (Nat × Nat × Nat)) : Nat × Nat × Nat :=
  match blocks with
  | [] => (0, 0, 0)
  | h :: t => t.foldl (fun best b => if best.2.2 < b.2.2 then b else best) h

/-- `AnnotationSyncer._apply_highlighting`.  Returns
`(updated_content, was_updated)`. -/
def applyHighlighting (content : List Char) (matchIndex : Nat)
    (highlightText comment blockId : List Char) : List Char × Bool :=
  let lines := splitNl content
  if lines.length ≤ matchIndex then (content, false)
  else
    let cur := lines.getD matchIndex []
    if containsSub cur ['=', '='] then (content, false)
    else
      let blocks := getMatchingBlocks highlightText cur
      let goodMatch := blocks.any fun b => 20 < b.2.2
      let ratio := sequenceRatio highlightText cur
      if !goodMatch ∧ ratio < 7/10 then (content, false)
      else
        let highlightRange : Option (Nat × Nat) :=
          if blocks ≠ [] then
            let bestBlock := maxBlock blocks
            if 10 < bestBlock.2.2 then
              some (bestBlock.2.1, bestBlock.2.1 + bestBlock.2.2)
            else none
          else none
        let applyRange := fun (rg : Nat × Nat) =>
          let newLine := cur.take rg.1 ++ ('=' :: '=' ::
            ((cur.drop rg.1).take (rg.2 - rg.1))) ++ ('=' :: '=' :: cur.drop rg.2)
          let lines2 := lines.set matchIndex newLine
          let lines3 :=
            if stripL comment ≠ [] then
              lines2.insertIdx (matchIndex + 1)
                ("> [!note] Comment\n> ".data ++ stripL comment)
            else lines2
          (joinNl lines3, true)
        match highlightRange with
        | some rg => applyRange rg
        | none =>
          if 3/5 < ratio then applyRange (0, cur.length) else (content, false)

/-! ## `preorgclaude_indexer.py`: the document merge writer
(`update_existing_metadata` and the front-matter rendering of
`create_markdown`) -/

/-- Metadata dictionaries are insertion-ordered key/value lists. -/
abbrev MetaKV := List Char × List Char

/-- Python dict assignment `d[k] = v`: replace the value in place if the
key is present, otherwise append. -/
def setKey : List MetaKV → List Char → List Char → List MetaKV
  | [], k, v => [(k, v)]
  | (k0, v0) :: t, k, v =>
    if k0 = k then (k, v) :: t else (k0, v0) :: setKey t k v

/-- `re.search(r'---\n(.*?)\n---', content, re.DOTALL)`: the text between
the first `---` line and the next `---` line. -/
def yamlBlock (content : List Char) : Option (List Char) :=
  match findSub content "---\n".data with
  | none => none
  | some p =>
    let rest := content.drop (p + 4)
    match findSub rest "\n---".data with
    | none => none
    | some q => some (rest.take q)

/-- `re.search(rf'\x7bfield\x7d:\s*(.*)', yaml)` followed by
`.group(1).strip()`: after the first occurrence of `field:`, skip
whitespace (greedy, possibly across newlines), capture to end of line,
strip. -/
def fieldValue (yaml field : List Char) : Option (List Char) :=
  match findSub yaml (field ++ [':']) with
  | none => none
  | some r =>
    let rest := (yaml.drop (r + field.length + 1)).dropWhile isPySpace
    some (stripL (rest.takeWhile fun c => c ≠ '\n'))

/-- The preserve-set of `update_existing_metadata`. -/
def preserveFields : List (List Char) :=
  ["status".data, "reading_progress".data, "last_annotated".data, "jdnumber".data]

/-- `update_existing_metadata(file_path, new_metadata)` once the existing
file content has been read: copy every preserve-set field present with a
non-empty value in the existing front-matter into the new metadata. -/
def updateExistingMetadata (content : List Char) (newMetadata : List MetaKV) :
    List MetaKV :=
  match yamlBlock content with
  | none => newMetadata
  | some y =>
    preserveFields.foldl (fun m f =>
      match fieldValue y f with
      | some v => if v ≠ [] then setKey m f v else m
      | none => m) newMetadata

/-- The YAML front-matter lines `create_markdown` renders from a metadata
dictionary: one `key: "value"` line per non-empty non-tags field, then the
tags block. -/
def buildYamlLines (metadata : List MetaKV) : List (List Char) :=
  let fieldLines := metadata.filterMap fun kv =>
    if kv.1 ≠ "tags".data ∧ kv.2 ≠ [] then
      some (kv.1 ++ ": ".data ++ ('"' :: kv.2) ++ ['"'])
    else none
  let tagsVal := (metadata.find? fun kv => kv.1 = "tags".data).map Prod.snd
  let tagLines :=
    match tagsVal with
    | some v =>
      if v ≠ [] then
        "tags:".data :: (splitOnChar ',' v).map (fun t => "  - ".data ++ stripL t)
      else ["tags:".data, "  - book".data]
    | none => ["tags:".data, "  - book".data]
  ("---".data :: fieldLines) ++ tagLines ++ ["---".data]

/-- The front-matter text `create_markdown` produces for a book whose
landing page may already exist: preserve-set fields are merged in first
when an existing document is present. -/
def regenerateFrontmatter (existingContent : Option (List Char))
    (metadata : List MetaKV) : List Char :=
  let m := match existingContent with
    | some c => updateExistingMetadata c metadata
    | none => metadata
  joinNl (buildYamlLines m)

/-- `needle` occurs contiguously inside `hay`. -/
def SubstrP (hay needle : List Char) : Prop :=
  ∃ p q, hay = p ++ needle ++ q

/-! ## `FileProcessor` (src/src/processor/file_processor.py) -/

/-- A directory entry as the file processor sees it. -/
structure FSFile where
  name : List Char
  content : List Nat
  isDir : Bool := false
  readable : Bool := true
deriving Repr, DecidableEq

/-- `pathlib.PurePath.suffix`: the trailing `.`-component, empty when the
only dot is leading or trailing. -/
def pathSuffix (name : List Char) : List Char :=
  match name.reverse.findIdx? (fun c => c = '.') with
  | none => []
  | some p =>
    if p = 0 ∨ p = name.length - 1 then []
    else name.drop (name.length - 1 - p)

/-- `pathlib.PurePath.stem`. -/
def pathStem (name : List Char) : List Char :=
  name.take (name.length - (pathSuffix name).length)

def supportedFormats : List (List Char) := [".pdf".data, ".epub".data]

def convertibleFormats : List (List Char) :=
  [".docx".data, ".doc".data, ".rtf".data, ".odt".data, ".azw".data,
   ".azw3".data, ".xhtml".data, ".html".data, ".mobi".data]

/-- Flagged loop behind `collapseWsAux`: `inRun` records whether the
previous character was whitespace. -/
def collapseWsGo (inRun : Bool) : List Char → List Char
  | [] => []
  | c :: t =>
    if isPySpace c then
      if inRun then collapseWsGo true t else ' ' :: collapseWsGo true t
    else c :: collapseWsGo false t

/-- `re.sub(r'\s+', ' ', s)`: collapse every whitespace run to one space. -/
def collapseWsAux (l : List Char) : List Char :=
  collapseWsGo false l

/-- `FileProcessor.sanitize_filename`. -/
def sanitizeFilename (filename : List Char) : List Char :=
  if filename = [] then "untitled".data
  else
    let c1 := filename.filter fun c => !(c = '[' || c = ']' || c = '(' || c = ')')
    let c2 := c1.map fun c =>
      if c = ':' || c = '\\' || c = '/' || c = '|' || c = '<' || c = '>' ||
         c = '*' || c = '?' || c = '"' then '-' else c
    let c3 := stripL (collapseWsAux c2)
    if c3 = [] then "untitled".data else c3

/-- The sampling window of `_calculate_file_hash` (1 MiB). -/
def sampleSize : Nat := 1024 * 1024

/-- The byte sequence `_calculate_file_hash` feeds to MD5: the whole file
when it is small, otherwise head, middle and tail windows. -/
def sampleBytes (content : List Nat) : List Nat :=
  let size := content.length
  let beginning := content.take (min sampleSize size)
  if 2 * sampleSize < size then
    beginning ++ (content.drop (size / 2)).take (min sampleSize (size - size / 2)) ++
      (content.drop (size - sampleSize)).take sampleSize
  else beginning

/-- `_calculate_file_hash` with the MD5 digest abstracted as `md5`. -/
def fileHash (md5 : List Nat → Nat) (content : List Nat) : Nat :=
  md5 (sampleBytes content)

/-- The metadata fields `_extract_publication_year` consults. -/
structure BookMeta where
  year : Option (List Char) := none
  pubdate : Option (List Char) := none
  publisher : Option (List Char) := none
deriving Repr, DecidableEq

/-- Python truthiness of `'k' in metadata and metadata['k']` for a string
field. -/
def optTruthy : Option (List Char) → Bool
  | some s => s ≠ []
  | none => false

/-- Python `int(s)` on a decimal string literal. -/
def digitsToNat (ds : List Char) : Option Nat :=
  if ds ≠ [] ∧ ds.all Char.isDigit then
    some (ds.foldl (fun acc c => 10 * acc + (c.toNat - 48)) 0)
  else none

/-- Python `int(s)` with optional sign and surrounding whitespace. -/
def pythonInt (s : List Char) : Option Int :=
  match stripL s with
  | '+' :: ds => (digitsToNat ds).map Int.ofNat
  | '-' :: ds => (digitsToNat ds).map fun n => -(n : Int)
  | ds => (digitsToNat ds).map Int.ofNat

/-- `re.match(r'^\d{4}-\d{2}-\d{2}$', s)`. -/
def isIsoDate (s : List Char) : Bool :=
  match s with
  | [a, b, c, d, s1, e, f, s2, g, h] =>
    [a, b, c, d, e, f, g, h].all Char.isDigit && s1 = '-' && s2 = '-'
  | _ => false

/-- Leftmost run of four consecutive digits (`re.search(r'(\d{4})', s)`). -/
def firstFourDigitRun : List Char → Option (List Char)
  | [] => none
  | c :: t =>
    if c.isDigit ∧ 3 ≤ t.length ∧ (t.take 3).all Char.isDigit then
      some (c :: t.take 3)
    else firstFourDigitRun t

/-- `FileProcessor._extract_publication_year`: explicit `year` field
(range-checked), then the `pubdate` date field (ISO shape read directly,
other formats delegated to the abstracted `datetime.strptime` loop), then
digits embedded in `publisher` (range-checked). -/
def extractPublicationYear (strptimeYear : List Char → Option Int)
    (m : BookMeta) : Option Int :=
  let fromYear : Option Int :=
    if optTruthy m.year then
      match pythonInt (m.year.getD []) with
      | some y => if 1900 ≤ y ∧ y ≤ 2100 then some y else none
      | none => none
    else none
  match fromYear with
  | some y => some y
  | none =>
    let fromDate : Option Int :=
      if optTruthy m.pubdate then
        let ds := m.pubdate.getD []
        if isIsoDate ds then pythonInt (ds.take 4)
        else strptimeYear ds
      else none
    match fromDate with
    | some y => some y
    | none =>
      if optTruthy m.publisher then
        match firstFourDigitRun (m.publisher.getD []) with
        | some run =>
          match pythonInt run with
          | some y => if 1900 ≤ y ∧ y ≤ 2100 then some y else none
          | none => none
        | none => none
      else none

/-- First collision-free counter name `"<stem> (<k>)<ext>"` used by
`move_to_originals` when the destination exists with different content. -/
def firstFreeName (originals : List FSFile) (base ext : List Char) : List Char :=
  let cand := fun (k : Nat) => base ++ " (".data ++ (Nat.repr (k + 1)).data ++ [')'] ++ ext
  match ((List.range (originals.length + 1)).map cand).find?
      (fun nm => originals.all fun g => g.name ≠ nm) with
  | some nm => nm
  | none => cand originals.length

/-- `FileProcessor.move_to_originals`, with the success of the actual
`shutil` move abstracted as `moveOk`; returns the destination name. -/
def moveToOriginals (md5 : List Nat → Nat) (f : FSFile)
    (originals : List FSFile) (moveOk : Bool) : Option (List Char) :=
  match originals.find? (fun g => g.name = f.name) with
  | some g =>
    if fileHash md5 f.content = fileHash md5 g.content then some g.name
    else
      let nm := firstFreeName originals (pathStem f.name) (pathSuffix f.name)
      if moveOk then some nm else none
  | none => if moveOk then some f.name else none

/-- Status values of `_process_single_file`. -/
inductive FStatus
  | processed
  | converted
  | skipped
  | error
deriving Repr, DecidableEq

/-- The external collaborators of `_process_single_file`. -/
structure ProcessEnv where
  md5 : List Nat → Nat
  extractMeta : FSFile → Option BookMeta
  strptimeYear : List Char → Option Int
  convert : FSFile → Option FSFile
  renameOk : Bool
  moveOk : Bool

/-- The same-name collision step of `_process_single_file` (lines
209–264): either an early return (`Except.error`) or the clean name to
continue with (`Except.ok`). -/
def collisionStep (env : ProcessEnv) (f : FSFile) (cleanName0 : List Char)
    (existingFiles : List FSFile) : Except (FStatus × List Char) (List Char) :=
  match existingFiles.find? (fun g => g.name = cleanName0) with
  | none => .ok cleanName0
  | some ex =>
    if toLowerL (pathSuffix f.name) = toLowerL (pathSuffix ex.name) then
      match env.extractMeta f, env.extractMeta ex with
      | some nm, some em =>
        match extractPublicationYear env.strptimeYear nm,
            extractPublicationYear env.strptimeYear em with
        | some ny, some ey =>
          if ey < ny then
            .ok (pathStem f.name ++ " (".data ++ (toString ny).data ++ [')'] ++
              pathSuffix f.name)
          else if ny < ey then .error (.skipped, ex.name)
          else .ok cleanName0
        | _, _ => .ok cleanName0
      | _, _ => .ok cleanName0
    else if toLowerL (pathSuffix f.name) ∈ supportedFormats ∧
        toLowerL (pathSuffix ex.name) ∉ supportedFormats then
      .ok cleanName0
    else if toLowerL (pathSuffix f.name) ∉ supportedFormats ∧
        toLowerL (pathSuffix ex.name) ∈ supportedFormats then
      .error (.skipped, ex.name)
    else .ok cleanName0

/-- `FileProcessor._process_single_file`. -/
def processSingleFile (env : ProcessEnv) (f : FSFile)
    (existingFiles : List FSFile) (existingHashes : List Nat)
    (originals : List FSFile) : FStatus × List Char :=
  if f.isDir then (.skipped, f.name)
  else if !f.readable then (.error, f.name)
  else if fileHash env.md5 f.content ∈ existingHashes then (.skipped, f.name)
  else
    match collisionStep env f (sanitizeFilename f.name) existingFiles with
    | .error r => r
    | .ok cleanName =>
      let f1 := if f.name ≠ cleanName ∧ env.renameOk then
          { f with name := cleanName } else f
      if toLowerL (pathSuffix f1.name) ∈ supportedFormats then
        match moveToOriginals env.md5 f1 originals env.moveOk with
        | some dest => (.processed, dest)
        | none => (.error, f1.name)
      else if toLowerL (pathSuffix f1.name) ∈ convertibleFormats then
        match env.convert f1 with
        | some conv =>
          if fileHash env.md5 conv.content ∈ existingHashes then (.skipped, f1.name)
          else
            match moveToOriginals env.md5 conv originals env.moveOk with
            | some dest => (.converted, dest)
            | none => (.error, f1.name)
        | none => (.error, f1.name)
      else (.skipped, f1.name)

/-- The supported-format originals listing `process_bucket` indexes by
name (line 71). -/
def getExistingFiles (originals : List FSFile) : List FSFile :=
  originals.filter fun g =>
    !g.isDir && toLowerL (pathSuffix g.name) ∈ supportedFormats

/-- The content hashes of those files (lines 74, 117–130). -/
def getExistingHashes (md5 : List Nat → Nat) (files : List FSFile) : List Nat :=
  files.map fun g => fileHash md5 g.content

/-! ## General helper lemmas -/

theorem foldl_const {α β : Type} {f : β → α → β} {b : β}
    (h : ∀ a, f b a = b) (l : List α) : l.foldl f b = b := by
  induction l with
  | nil => rfl
  | cons x t ih => simp only [List.foldl_cons, h x, ih]

theorem getD_set_self {α : Type} (l : List α) (i : Nat) (a d : α)
    (h : i < l.length) : (l.set i a).getD i d = a := by
  induction l generalizing i with
  | nil => simp at h
  | cons x t ih =>
    cases i with
    | zero => rfl
    | succ j =>
      simp only [List.set_cons_succ, List.getD_cons_succ]
      exact ih j (by simpa using h)

theorem splitNl_cons (c : Char) (t : List Char) :
    splitNl (c :: t) =
      if c = '\n' then [] :: splitNl t
      else (c :: (splitNl t).headI) :: (splitNl t).tail := rfl

theorem splitNl_ne_nil (l : List Char) : splitNl l ≠ [] := by
  induction l with
  | nil => simp [splitNl]
  | cons c t ih =>
    rw [splitNl_cons]
    split <;> simp

theorem splitNl_no_nl (l : List Char) (h : '\n' ∉ l) : splitNl l = [l] := by
  induction l with
  | nil => rfl
  | cons c t ih =>
    rw [splitNl_cons]
    have hc : ¬c = '\n' := fun hc => h (hc ▸ List.mem_cons_self c t)
    rw [if_neg hc, ih (fun hm => h (List.mem_cons_of_mem c hm))]
    rfl

theorem splitNl_append_nl (x rest : List Char) (hx : '\n' ∉ x) :
    splitNl (x ++ '\n' :: rest) = x :: splitNl rest := by
  induction x with
  | nil => simp [splitNl_cons]
  | cons c t ih =>
    have hc : ¬c = '\n' := fun hc => hx (hc ▸ List.mem_cons_self c t)
    rw [List.cons_append, splitNl_cons, if_neg hc,
      ih (fun hm => hx (List.mem_cons_of_mem c hm))]
    rfl

theorem mem_splitNl_no_nl (l : List Char) :
    ∀ part ∈ splitNl l, '\n' ∉ part := by
  induction l with
  | nil =>
    intro part hp
    simp only [splitNl, List.foldr_nil, List.mem_singleton] at hp
    simp [hp]
  | cons c t ih =>
    intro part hp
    rw [splitNl_cons] at hp
    by_cases hc : c = '\n'
    · rw [if_pos hc] at hp
      rcases List.mem_cons.1 hp with h1 | h1
      · simp [h1]
      · exact ih part h1
    · rw [if_neg hc] at hp
      rcases List.mem_cons.1 hp with h1 | h1
      · subst h1
        intro hmem
        rcases List.mem_cons.1 hmem with h2 | h2
        · exact hc h2.symm
        · have hhead : (splitNl t).headI ∈ splitNl t := by
            cases hsp : splitNl t with
            | nil => exact absurd hsp (splitNl_ne_nil t)
            | cons a u => simp
          exact ih _ hhead h2
      · exact ih part (List.mem_of_mem_tail h1)

theorem joinNl_cons_cons (x y : List Char) (t : List (List Char)) :
    joinNl (x :: y :: t) = x ++ '\n' :: joinNl (y :: t) := by
  simp [joinNl, List.intersperse]

theorem splitNl_joinNl (ls : List (List Char)) (hne : ls ≠ [])
    (h : ∀ part ∈ ls, '\n' ∉ part) : splitNl (joinNl ls) = ls := by
  induction ls with
  | nil => exact absurd rfl hne
  | cons x t ih =>
    cases t with
    | nil =>
      have : joinNl [x] = x := by simp [joinNl]
      rw [this, splitNl_no_nl x (h x (List.mem_cons_self x []))]
    | cons y u =>
      rw [joinNl_cons_cons,
        splitNl_append_nl x _ (h x (List.mem_cons_self x _)),
        ih (by simp) (fun p hp => h p (List.mem_cons_of_mem x hp))]

/-! ## Claim C10: rejected or skipped annotations never mutate the body -/

theorem applyHighlighting_cases (content : List Char) (i : Nat)
    (hl cm bid : List Char) :
    applyHighlighting content i hl cm bid = (content, false) ∨
      (applyHighlighting content i hl cm bid).2 = true := by
  simp only [applyHighlighting]
  split_ifs <;> simp

theorem ensureBlockId_cases (content : List Char) (i : Nat) (nid : List Char) :
    ((ensureBlockId content i nid).2.1 = content ∧
      (ensureBlockId content i nid).2.2 = false) ∨
      (ensureBlockId content i nid).2.2 = true := by
  simp only [ensureBlockId]
  split_ifs with h1
  · simp
  · rcases hta : trailingAnchor ((splitNl content).getD i []) with _ | bid <;> simp [hta]

/-- C10: whenever the highlighting step (`_apply_highlighting`) or the
anchoring step (`_ensure_block_id`) reports `was_updated = False` —
including an already-highlighted line, an insufficient match, or an
out-of-range index — the content it returns is exactly the input
content. -/
theorem C10_no_update_frame (content : List Char) (i : Nat)
    (hl cm bid nid : List Char) :
    ((applyHighlighting content i hl cm bid).2 = false →
      (applyHighlighting content i hl cm bid).1 = content) ∧
    ((ensureBlockId content i nid).2.2 = false →
      (ensureBlockId content i nid).2.1 = content) := by
  constructor
  · intro h
    rcases applyHighlighting_cases content i hl cm bid with hc | hc
    · rw [hc]
    · rw [h] at hc
      exact absurd hc (by simp)
  · intro h
    rcases ensureBlockId_cases content i nid with hc | hc
    · exact hc.1
    · rw [h] at hc
      exact absurd hc (by simp)

/-- Witness for C10: a line already carrying `==` markers is left alone by
the highlighter, and a line already carrying an anchor is left alone by
the anchorer. -/
theorem C10_no_update_frame_witness :
    (applyHighlighting "a ==b== c".data 0 "xyz".data [] []).1 = "a ==b== c".data ∧
    (ensureBlockId "hello world ^abc12".data 0 "zzzz".data).2.1 =
      "hello world ^abc12".data :=
  ⟨(C10_no_update_frame "a ==b== c".data 0 "xyz".data [] [] "q".data).1 (by decide),
   (C10_no_update_frame "hello world ^abc12".data 0 [] [] [] "zzzz".data).2 (by decide)⟩

/-! ## Claim C2: anchor reuse and idempotence -/

theorem takeWhile_append_of_all (p : Char → Bool) (l1 l2 : List Char)
    (h : l1.all p) : (l1 ++ l2).takeWhile p = l1 ++ l2.takeWhile p := by
  induction l1 with
  | nil => simp
  | cons c t ih =>
    simp only [List.all_cons, Bool.and_eq_true] at h
    simp [List.takeWhile_cons, h.1, ih h.2]

theorem trailingAnchor_append (cur newId : List Char) (h1 : newId ≠ [])
    (h2 : newId.all Char.isAlphanum) :
    trailingAnchor (cur ++ ' ' :: '^' :: newId) = some newId := by
  have hrev : (cur ++ ' ' :: '^' :: newId).reverse =
      newId.reverse ++ '^' :: ' ' :: cur.reverse := by
    simp
  have hall : newId.reverse.all Char.isAlphanum := by
    simpa using h2
  have htake : (newId.reverse ++ '^' :: ' ' :: cur.reverse).takeWhile Char.isAlphanum =
      newId.reverse := by
    rw [takeWhile_append_of_all _ _ _ hall]
    simp [List.takeWhile_cons]
  have hdrop : (newId.reverse ++ '^' :: ' ' :: cur.reverse).drop newId.reverse.length =
      '^' :: ' ' :: cur.reverse := List.drop_left _ _
  unfold trailingAnchor
  rw [hrev]
  simp [htake, hdrop, h1]

/-- C2: on a line that already ends with an anchor token (caret followed
by alphanumerics at line end), `_ensure_block_id` returns the existing
anchor id, reports no update and leaves the content unchanged; hence a
second run on the same line returns the first run's anchor id without
appending another anchor. -/
theorem C2_ensure_block_id_idempotent (content : List Char) (i : Nat)
    (newId newId2 : List Char)
    (hid : newId ≠ [] ∧ newId.all Char.isAlphanum) :
    (∀ aid, trailingAnchor ((splitNl content).getD i []) = some aid →
      ensureBlockId content i newId = (aid, content, false)) ∧
    ensureBlockId ((ensureBlockId content i newId).2.1) i newId2 =
      ((ensureBlockId content i newId).1,
       (ensureBlockId content i newId).2.1, false) := by
  constructor
  · intro aid ha
    simp only [ensureBlockId]
    by_cases h1 : (splitNl content).length ≤ i
    · rw [List.getD_eq_default _ _ h1] at ha
      exact absurd ha (by simp [trailingAnchor])
    · rw [if_neg h1, ha]
  · by_cases h1 : (splitNl content).length ≤ i
    · have e1 : ensureBlockId content i newId = ([], content, false) := by
        simp only [ensureBlockId]
        rw [if_pos h1]
      rw [e1]
      simp only [ensureBlockId]
      rw [if_pos h1]
    · rcases hta : trailingAnchor ((splitNl content).getD i []) with _ | aid
      · have e1 : ensureBlockId content i newId =
            (newId, joinNl ((splitNl content).set i
              (((splitNl content).getD i []) ++ ' ' :: '^' :: newId)), true) := by
          simp only [ensureBlockId]
          rw [if_neg h1, hta]
        rw [e1]
        have hlt : i < (splitNl content).length := Nat.lt_of_not_le h1
        have hnl : ∀ part ∈ (splitNl content).set i
            (((splitNl content).getD i []) ++ ' ' :: '^' :: newId),
            '\n' ∉ part := by
          intro part hp
          rcases List.mem_or_eq_of_mem_set hp with hmem | heq
          · exact mem_splitNl_no_nl content part hmem
          · subst heq
            intro hin
            rcases List.mem_append.1 hin with hin1 | hin1
            · have hcur : (splitNl content).getD i [] ∈ splitNl content := by
                rw [List.getD_eq_getElem _ _ hlt]
                exact List.getElem_mem hlt
              exact mem_splitNl_no_nl content _ hcur hin1
            · rcases hin1 with _ | ⟨_, hin2⟩
              · rcases hin2 with _ | ⟨_, hin3⟩
                have := List.all_eq_true.1 hid.2 _ hin3
                simp at this
        have hlen : ((splitNl content).set i
            (((splitNl content).getD i []) ++ ' ' :: '^' :: newId)).length =
            (splitNl content).length := List.length_set _ _ _
        have hnonnil : (splitNl content).set i
            (((splitNl content).getD i []) ++ ' ' :: '^' :: newId) ≠ [] := by
          intro hcon
          have := splitNl_ne_nil content
          have : (splitNl content).length = 0 := by
            rw [← hlen, hcon]
            rfl
          omega
        have hsplit : splitNl (joinNl ((splitNl content).set i
            (((splitNl content).getD i []) ++ ' ' :: '^' :: newId))) =
            (splitNl content).set i
              (((splitNl content).getD i []) ++ ' ' :: '^' :: newId) :=
          splitNl_joinNl _ hnonnil hnl
        simp only [ensureBlockId, hsplit]
        rw [if_neg (by rw [hlen]; exact h1)]
        rw [getD_set_self _ i _ _ hlt]
        rw [trailingAnchor_append _ _ hid.1 hid.2]
      · have e1 : ensureBlockId content i newId = (aid, content, false) := by
          simp only [ensureBlockId]
          rw [if_neg h1, hta]
        rw [e1]
        simp only [ensureBlockId]
        rw [if_neg h1, hta]

/-- Witness for C2: an already-anchored line keeps its anchor `abc12`
unchanged, and on an unanchored line two runs agree, the second reporting
no update. -/
theorem C2_ensure_block_id_idempotent_witness :
    ensureBlockId "hi ^abc12\nworld".data 0 "zzzz".data =
      ("abc12".data, "hi ^abc12\nworld".data, false) ∧
    ensureBlockId ((ensureBlockId "hi\nworld".data 0 "deadbee101".data).2.1) 0
        "ffff".data =
      ((ensureBlockId "hi\nworld".data 0 "deadbee101".data).1,
       (ensureBlockId "hi\nworld".data 0 "deadbee101".data).2.1, false) :=
  ⟨(C2_ensure_block_id_idempotent "hi ^abc12\nworld".data 0 "zzzz".data "y".data
      (by decide)).1 "abc12".data (by decide),
   (C2_ensure_block_id_idempotent "hi\nworld".data 0 "deadbee101".data "ffff".data
      (by decide)).2⟩

/-! ## Claim C5: content-hash duplicates are skipped first -/

/-- C5: a bucket file whose content hash is among the hashes of the
supported-format files already in the originals directory is skipped
before any filename- or metadata-based comparison; in particular two
byte-identical files are always duplicates regardless of their names.
The hash feeds on head, middle and tail windows for large files and on
the full content for small ones. -/
theorem C5_hash_duplicate_skipped (env : ProcessEnv) (f g : FSFile)
    (originals : List FSFile)
    (hdir : f.isDir = false) (hread : f.readable = true)
    (hg : g ∈ originals) (hgdir : g.isDir = false)
    (hgfmt : toLowerL (pathSuffix g.name) ∈ supportedFormats)
    (hsame : g.content = f.content) :
    processSingleFile env f (getExistingFiles originals)
      (getExistingHashes env.md5 (getExistingFiles originals)) originals =
      (FStatus.skipped, f.name) ∧
    (∀ content : List Nat, content.length ≤ sampleSize →
      sampleBytes content = content) ∧
    (∀ content : List Nat, 2 * sampleSize < content.length →
      sampleBytes content =
        content.take sampleSize ++
          (content.drop (content.length / 2)).take sampleSize ++
          (content.drop (content.length - sampleSize)).take sampleSize) := by
  refine ⟨?_, ?_, ?_⟩
  · have hgf : g ∈ getExistingFiles originals := by
      unfold getExistingFiles
      exact List.mem_filter.2 ⟨hg, by simp [hgdir, hgfmt]⟩
    have hmem : fileHash env.md5 f.content ∈
        getExistingHashes env.md5 (getExistingFiles originals) := by
      unfold getExistingHashes
      exact List.mem_map.2 ⟨g, hgf, by rw [hsame]⟩
    simp [processSingleFile, hdir, hread, hmem]
  · intro c hc
    unfold sampleBytes
    rw [if_neg (by unfold sampleSize at *; omega)]
    rw [Nat.min_eq_right hc, List.take_length]
  · intro c hc
    unfold sampleBytes
    rw [if_pos hc]
    have h1 : min sampleSize c.length = sampleSize := by
      unfold sampleSize at *; omega
    have h2 : min sampleSize (c.length - c.length / 2) = sampleSize := by
      unfold sampleSize at *; omega
    rw [h1, h2]

/-- Witness for C5: bucket file `copy B.pdf` with the same bytes as the
originals file `Original A.pdf` is skipped. -/
theorem C5_hash_duplicate_skipped_witness :
    processSingleFile
      ⟨fun l => l.length, fun _ => none, fun _ => none, fun _ => none, true, true⟩
      ⟨"copy B.pdf".data, [7, 7, 7], false, true⟩
      (getExistingFiles [⟨"Original A.pdf".data, [7, 7, 7], false, true⟩])
      (getExistingHashes (fun l => l.length)
        (getExistingFiles [⟨"Original A.pdf".data, [7, 7, 7], false, true⟩]))
      [⟨"Original A.pdf".data, [7, 7, 7], false, true⟩] =
      (FStatus.skipped, "copy B.pdf".data) :=
  (C5_hash_duplicate_skipped
    ⟨fun l => l.length, fun _ => none, fun _ => none, fun _ => none, true, true⟩
    ⟨"copy B.pdf".data, [7, 7, 7], false, true⟩
    ⟨"Original A.pdf".data, [7, 7, 7], false, true⟩
    [⟨"Original A.pdf".data, [7, 7, 7], false, true⟩]
    rfl rfl (by decide) rfl (by decide) rfl).1

/-! ## Claim C6: edition resolution by publication year -/

/-- C6 counterexample: the date-field path of
`_extract_publication_year` performs no 1900–2100 range check — an ISO
date with year `0005` yields the year 5. -/
theorem C6_year_range_counterexample :
    extractPublicationYear (fun _ => none)
      ⟨none, some "0005-01-02".data, none⟩ = some 5 ∧
    ¬(1900 ≤ (5 : Int) ∧ (5 : Int) ≤ 2100) := by
  constructor
  · decide
  · decide

theorem dropWhile_eq_self_of_head (p : Char → Bool) (l : List Char)
    (h : ∀ c ∈ l, p c = false) : l.dropWhile p = l := by
  cases l with
  | nil => rfl
  | cons c t =>
    rw [List.dropWhile_cons]
    simp [h c (List.mem_cons_self c t)]

theorem stripL_eq_self (l : List Char) (h : ∀ c ∈ l, isPySpace c = false) :
    stripL l = l := by
  unfold stripL
  rw [dropWhile_eq_self_of_head _ _ h]
  rw [dropWhile_eq_self_of_head _ _ (fun c hc => h c (by simpa using hc))]
  simp

theorem isoDate_digits (ds : List Char) (h : isIsoDate ds = true) :
    ds.take 4 ≠ [] ∧ (ds.take 4).all Char.isDigit = true := by
  rcases ds with _ | ⟨a, (_ | ⟨b, (_ | ⟨c, (_ | ⟨d, (_ | ⟨s1, (_ | ⟨e, (_ | ⟨f, (_ | ⟨s2, (_ | ⟨g, (_ | ⟨hh, (_ | ⟨x, (rest)⟩)⟩)⟩)⟩)⟩)⟩)⟩)⟩)⟩)⟩)⟩ <;>
    simp [isIsoDate] at h ⊢ <;> tauto

theorem pythonInt_digits_ne_none (l : List Char) (hne : l ≠ [])
    (hd : l.all Char.isDigit = true) : pythonInt l ≠ none := by
  have hns : ∀ c ∈ l, isPySpace c = false := by
    intro c hc
    have hcd := List.all_eq_true.1 hd c hc
    cases hsp : isPySpace c
    · rfl
    · exfalso
      simp [isPySpace] at hsp
      rcases hsp with ((((h1 | h1) | h1) | h1) | h1) | h1 <;> subst h1 <;>
        exact absurd hcd (by decide)
  have hstrip : stripL l = l := stripL_eq_self l hns
  rcases l with _ | ⟨a, rest⟩
  · exact absurd rfl hne
  · have ha : Char.isDigit a = true :=
      List.all_eq_true.1 hd a (List.mem_cons_self _ _)
    unfold pythonInt
    rw [hstrip]
    split
    · rename_i heq
      injection heq with h1 _
      exact absurd ha (by rw [h1]; decide)
    · rename_i heq
      injection heq with h1 _
      exact absurd ha (by rw [h1]; decide)
    · simp [digitsToNat, hd]

theorem optTruthy_some_ne (s : List Char) (h : s ≠ []) :
    optTruthy (some s) = true := by
  simp [optTruthy, h]

/-- C6 (amended): on a same-sanitized-name, same-format collision the
years are compared — the later-year file wins (kept under a name carrying
the year) and the earlier-year file is skipped as superseded — and year
extraction tries the explicit year field, then the date field, then
digits in the publisher string, in that order, with the 1900–2100 range
check applied to the year field and the publisher digits (the date-field
path accepts any parsed year). -/
theorem C6_edition_resolution (env : ProcessEnv) (f ex : FSFile)
    (originals : List FSFile) (nm em : BookMeta) (ny ey : Int)
    (hdir : f.isDir = false) (hread : f.readable = true)
    (hnodup : fileHash env.md5 f.content ∉
      getExistingHashes env.md5 (getExistingFiles originals))
    (hfind : (getExistingFiles originals).find?
      (fun g => g.name = sanitizeFilename f.name) = some ex)
    (hsuf : toLowerL (pathSuffix f.name) = toLowerL (pathSuffix ex.name))
    (hmn : env.extractMeta f = some nm)
    (hme : env.extractMeta ex = some em)
    (hyn : extractPublicationYear env.strptimeYear nm = some ny)
    (hye : extractPublicationYear env.strptimeYear em = some ey) :
    (ny < ey →
      processSingleFile env f (getExistingFiles originals)
        (getExistingHashes env.md5 (getExistingFiles originals)) originals =
        (FStatus.skipped, ex.name)) ∧
    (ey < ny → env.renameOk = true → env.moveOk = true →
      ∀ newName, newName = pathStem f.name ++ " (".data ++
          (toString ny).data ++ [')'] ++ pathSuffix f.name →
        toLowerL (pathSuffix newName) ∈ supportedFormats →
        f.name ≠ newName →
        originals.find? (fun g => g.name = newName) = none →
        processSingleFile env f (getExistingFiles originals)
          (getExistingHashes env.md5 (getExistingFiles originals)) originals =
          (FStatus.processed, newName)) ∧
    (∀ st (m : BookMeta) ys y, m.year = some ys → pythonInt ys = some y →
      1900 ≤ y → y ≤ 2100 → extractPublicationYear st m = some y) ∧
    (∀ st (m : BookMeta) ys y, m.year = some ys → pythonInt ys = some y →
      ¬(1900 ≤ y ∧ y ≤ 2100) → optTruthy m.pubdate = false →
      optTruthy m.publisher = false → extractPublicationYear st m = none) ∧
    (∀ st (m : BookMeta) ds, optTruthy m.year = false → m.pubdate = some ds →
      isIsoDate ds = true → extractPublicationYear st m = pythonInt (ds.take 4)) ∧
    (∀ st (m : BookMeta) pub run y, optTruthy m.year = false →
      optTruthy m.pubdate = false → m.publisher = some pub →
      firstFourDigitRun pub = some run → pythonInt run = some y →
      1900 ≤ y → y ≤ 2100 → extractPublicationYear st m = some y) ∧
    (∀ st (m : BookMeta) pub run y, optTruthy m.year = false →
      optTruthy m.pubdate = false → m.publisher = some pub →
      firstFourDigitRun pub = some run → pythonInt run = some y →
      ¬(1900 ≤ y ∧ y ≤ 2100) → extractPublicationYear st m = none) := by
  have hys_ne : ∀ (ys : List Char) (y : Int), pythonInt ys = some y → ys ≠ [] := by
    intro ys y hp hcon
    subst hcon
    simp [pythonInt, stripL, digitsToNat] at hp
  refine ⟨?_, ?_, ?_, ?_, ?_, ?_, ?_⟩
  · intro hlt
    have hstep : collisionStep env f (sanitizeFilename f.name)
        (getExistingFiles originals) = .error (.skipped, ex.name) := by
      simp only [collisionStep, hfind, hmn, hme, hyn, hye]
      rw [if_pos hsuf, if_neg (by omega), if_pos hlt]
    simp [processSingleFile, hdir, hread, hnodup, hstep]
  · intro hgt hrn hmv newName hnew hfmt hneq hfree
    have hstep : collisionStep env f (sanitizeFilename f.name)
        (getExistingFiles originals) = .ok newName := by
      simp only [collisionStep, hfind, hmn, hme, hyn, hye]
      rw [if_pos hsuf, if_pos hgt, hnew]
    have hmove : moveToOriginals env.md5
        { name := newName, content := f.content, isDir := false, readable := true }
        originals env.moveOk = some newName := by
      simp [moveToOriginals, hfree, hmv]
    simp [processSingleFile, hdir, hread, hnodup, hstep, hneq, hrn, hfmt, hmove]
  · intro st m ys y hys hp h1 h2
    have hne := hys_ne ys y hp
    simp [extractPublicationYear, hys, optTruthy_some_ne ys hne, hp, h1, h2]
  · intro st m ys y hys hp hrange hpd hpub
    have hne := hys_ne ys y hp
    simp [extractPublicationYear, hys, optTruthy_some_ne ys hne, hp, hrange, hpd, hpub]
  · intro st m ds hy hds hiso
    have hne : ds ≠ [] := by
      intro hcon
      rw [hcon] at hiso
      simp [isIsoDate] at hiso
    obtain ⟨ht4ne, ht4d⟩ := isoDate_digits ds hiso
    rcases hp : pythonInt (ds.take 4) with _ | yv
    · exact absurd hp (pythonInt_digits_ne_none _ ht4ne ht4d)
    · simp [extractPublicationYear, hy, hds, optTruthy_some_ne ds hne, hiso, hp]
  · intro st m pub run y hy hpd hpub hrun hp h1 h2
    have hne : pub ≠ [] := by
      intro hcon
      rw [hcon] at hrun
      simp [firstFourDigitRun] at hrun
    simp [extractPublicationYear, hy, hpd, optTruthy_some_ne pub hne, hpub, hrun, hp, h1, h2]
  · intro st m pub run y hy hpd hpub hrun hp hrange
    have hne : pub ≠ [] := by
      intro hcon
      rw [hcon] at hrun
      simp [firstFourDigitRun] at hrun
    simp [extractPublicationYear, hy, hpd, optTruthy_some_ne pub hne, hpub, hrun, hp, hrange]

/-- Witness for C6: with colliding `Book.pdf` files, the 2020 copy
arriving against an existing 2022 copy is skipped as superseded, and the
2022 copy arriving against an existing 2020 copy is kept as
`Book (2022).pdf`. -/
theorem C6_edition_resolution_witness :
    processSingleFile
      ⟨fun l => l.headD 0,
       fun file => if file.content = [1] then some ⟨some "2020".data, none, none⟩
         else some ⟨some "2022".data, none, none⟩,
       fun _ => none, fun _ => none, true, true⟩
      ⟨"Book.pdf".data, [1], false, true⟩
      (getExistingFiles [⟨"Book.pdf".data, [2], false, true⟩])
      (getExistingHashes (fun l => l.headD 0)
        (getExistingFiles [⟨"Book.pdf".data, [2], false, true⟩]))
      [⟨"Book.pdf".data, [2], false, true⟩] =
      (FStatus.skipped, "Book.pdf".data) ∧
    processSingleFile
      ⟨fun l => l.headD 0,
       fun file => if file.content = [1] then some ⟨some "2022".data, none, none⟩
         else some ⟨some "2020".data, none, none⟩,
       fun _ => none, fun _ => none, true, true⟩
      ⟨"Book.pdf".data, [1], false, true⟩
      (getExistingFiles [⟨"Book.pdf".data, [2], false, true⟩])
      (getExistingHashes (fun l => l.headD 0)
        (getExistingFiles [⟨"Book.pdf".data, [2], false, true⟩]))
      [⟨"Book.pdf".data, [2], false, true⟩] =
      (FStatus.processed, "Book (2022).pdf".data) :=
  ⟨(C6_edition_resolution
      ⟨fun l => l.headD 0,
       fun file => if file.content = [1] then some ⟨some "2020".data, none, none⟩
         else some ⟨some "2022".data, none, none⟩,
       fun _ => none, fun _ => none, true, true⟩
      ⟨"Book.pdf".data, [1], false, true⟩
      ⟨"Book.pdf".data, [2], false, true⟩
      [⟨"Book.pdf".data, [2], false, true⟩]
      ⟨some "2020".data, none, none⟩ ⟨some "2022".data, none, none⟩
      2020 2022 rfl rfl (by decide) (by decide) (by decide)
      (by decide) (by decide) (by decide) (by decide)).1 (by decide),
   (C6_edition_resolution
      ⟨fun l => l.headD 0,
       fun file => if file.content = [1] then some ⟨some "2022".data, none, none⟩
         else some ⟨some "2020".data, none, none⟩,
       fun _ => none, fun _ => none, true, true⟩
      ⟨"Book.pdf".data, [1], false, true⟩
      ⟨"Book.pdf".data, [2], false, true⟩
      [⟨"Book.pdf".data, [2], false, true⟩]
      ⟨some "2022".data, none, none⟩ ⟨some "2020".data, none, none⟩
      2022 2020 rfl rfl (by decide) (by decide) (by decide)
      (by decide) (by decide) (by decide) (by decide)).2.1 (by decide)
      rfl rfl "Book (2022).pdf".data (by decide) (by decide) (by decide)
      (by decide)⟩

/-! ## Claim C1: preserve-set fields survive regeneration -/

theorem setKey_mem_self (m : List MetaKV) (k v : List Char) :
    (k, v) ∈ setKey m k v := by
  induction m with
  | nil => simp [setKey]
  | cons kv t ih =>
    rcases kv with ⟨k0, v0⟩
    simp only [setKey]
    split
    · exact List.mem_cons_self _ _
    · exact List.mem_cons_of_mem _ ih

theorem setKey_mem_preserve (m : List MetaKV) (k v f w : List Char)
    (hne : k ≠ f) (h : (f, w) ∈ m) : (f, w) ∈ setKey m k v := by
  induction m with
  | nil => simp at h
  | cons kv t ih =>
    rcases kv with ⟨k0, v0⟩
    simp only [setKey]
    split
    · rename_i heq
      rcases List.mem_cons.1 h with h1 | h1
      · exfalso
        apply hne
        have h2 : f = k0 := congrArg Prod.fst h1
        rw [h2, heq]
      · exact List.mem_cons_of_mem _ h1
    · rcases List.mem_cons.1 h with h1 | h1
      · exact h1 ▸ List.mem_cons_self _ _
      · exact List.mem_cons_of_mem _ (ih h1)

theorem updFold_preserve (y : List Char) (flds : List (List Char))
    (m : List MetaKV) (f v : List Char) (hmem : (f, v) ∈ m)
    (hnot : f ∉ flds) :
    (f, v) ∈ flds.foldl (fun m g =>
      match fieldValue y g with
      | some w => if w ≠ [] then setKey m g w else m
      | none => m) m := by
  induction flds generalizing m with
  | nil => exact hmem
  | cons g t ih =>
    have hgf : g ≠ f := by
      intro h
      exact hnot (h ▸ List.mem_cons_self g t)
    have hnt : f ∉ t := fun h => hnot (List.mem_cons_of_mem g h)
    simp only [List.foldl_cons]
    apply ih _ _ hnt
    cases hfv : fieldValue y g with
    | none => exact hmem
    | some w =>
      simp only
      split
      · exact setKey_mem_preserve _ _ _ _ _ hgf hmem
      · exact hmem

theorem updFold_mem (y : List Char) (flds : List (List Char))
    (m : List MetaKV) (f v : List Char) (hf : f ∈ flds) (hnd : flds.Nodup)
    (hv : fieldValue y f = some v) (hne : v ≠ []) :
    (f, v) ∈ flds.foldl (fun m g =>
      match fieldValue y g with
      | some w => if w ≠ [] then setKey m g w else m
      | none => m) m := by
  induction flds generalizing m with
  | nil => simp at hf
  | cons g t ih =>
    rcases List.mem_cons.1 hf with h1 | h1
    · subst h1
      simp only [List.foldl_cons, hv]
      rw [if_pos hne]
      exact updFold_preserve y t _ f v (setKey_mem_self m f v)
        (List.nodup_cons.1 hnd).1
    · simp only [List.foldl_cons]
      exact ih _ h1 (List.nodup_cons.1 hnd).2

theorem mem_buildYamlLines (m : List MetaKV) (f v : List Char)
    (hmem : (f, v) ∈ m) (hf : f ≠ "tags".data) (hv : v ≠ []) :
    (f ++ ": ".data ++ ('"' :: v) ++ ['"']) ∈ buildYamlLines m := by
  unfold buildYamlLines
  apply List.mem_append.2
  left
  apply List.mem_append.2
  left
  apply List.mem_cons_of_mem
  apply List.mem_filterMap.2
  refine ⟨(f, v), hmem, ?_⟩
  rw [if_pos ⟨hf, hv⟩]

theorem joinNl_substr (ls : List (List Char)) (part : List Char)
    (h : part ∈ ls) : SubstrP (joinNl ls) part := by
  induction ls with
  | nil => simp at h
  | cons x t ih =>
    rcases List.mem_cons.1 h with h1 | h1
    · subst h1
      cases t with
      | nil => exact ⟨[], [], by simp [joinNl]⟩
      | cons z u =>
        exact ⟨[], '\n' :: joinNl (z :: u), by rw [joinNl_cons_cons]; simp⟩
    · cases t with
      | nil => simp at h1
      | cons z u =>
        obtain ⟨p, q, hpq⟩ := ih h1
        exact ⟨x ++ '\n' :: p, q, by rw [joinNl_cons_cons, hpq]; simp⟩

/-- C1: for every landing-page file whose front-matter yields a non-empty
value for a preserve-set field (status, reading_progress, last_annotated,
jdnumber), regenerating the page carries that value into the new
front-matter, whatever the freshly extracted metadata said for that
field. -/
theorem C1_preserve_fields (content : List Char) (metadata : List MetaKV)
    (f v y : List Char) (hf : f ∈ preserveFields)
    (hy : yamlBlock content = some y)
    (hv : fieldValue y f = some v) (hne : v ≠ []) :
    SubstrP (regenerateFrontmatter (some content) metadata)
      (f ++ ": ".data ++ ('"' :: v) ++ ['"']) := by
  have hmem : (f, v) ∈ updateExistingMetadata content metadata := by
    unfold updateExistingMetadata
    rw [hy]
    exact updFold_mem y preserveFields metadata f v hf (by decide) hv hne
  have hft : f ≠ "tags".data := by
    simp only [preserveFields, List.mem_cons, List.not_mem_nil, or_false] at hf
    rcases hf with h | h | h | h <;> subst h <;> decide
  exact joinNl_substr _ _ (mem_buildYamlLines _ f v hmem hft hne)

/-- Witness for C1: an existing landing page carrying `status: current`
regenerated with metadata that has no status field still renders a
front-matter line `status: "current"`. -/
theorem C1_preserve_fields_witness :
    SubstrP (regenerateFrontmatter
      (some "---\nstatus: current\n---\n# X".data)
      [("title".data, "X".data)])
      ("status".data ++ ": ".data ++ ('"' :: "current".data) ++ ['"']) :=
  C1_preserve_fields "---\nstatus: current\n---\n# X".data
    [("title".data, "X".data)] "status".data "current".data
    "status: current".data (by decide) (by decide) (by decide) (by decide)

/-! ## Claim C7: markdown-directory matcher acceptance threshold -/

theorem mdDirBest_some (s t : List Char) (dirs : List MDirEntry)
    (st : ℚ × Option MDirEntry) (d : MDirEntry)
    (hres : (dirs.foldl (fun st d =>
      if !d.isDir then st
      else
        let score := mdDirScore s t (toLowerL d.name)
        if st.1 < score ∧ (7/10 : ℚ) < score then (score, some d) else st)
      st).2 = some d) :
    st.2 = some d ∨ (d ∈ dirs ∧ d.isDir = true ∧
      (7/10 : ℚ) < mdDirScore s t (toLowerL d.name)) := by
  induction dirs generalizing st with
  | nil => exact Or.inl hres
  | cons e u ih =>
    simp only [List.foldl_cons] at hres
    rcases ih _ hres with h | h
    · by_cases he : e.isDir
      · simp only [he, Bool.not_true, Bool.false_eq_true, if_false] at h
        split at h
        · rename_i hcond
          right
          have hde : e = d := by
            simpa using h
          exact ⟨hde ▸ List.mem_cons_self e u, hde ▸ he, hde ▸ hcond.2⟩
        · exact Or.inl h
      · simp only [Bool.not_eq_true] at he
        simp only [he, Bool.not_false, if_true] at h
        exact Or.inl h
    · exact Or.inr ⟨List.mem_cons_of_mem e h.1, h.2.1, h.2.2⟩

theorem mdDirBest_all_below (s t : List Char) (dirs : List MDirEntry)
    (st : ℚ × Option MDirEntry)
    (h : ∀ d ∈ dirs, d.isDir = true →
      mdDirScore s t (toLowerL d.name) ≤ 7/10) :
    dirs.foldl (fun st d =>
      if !d.isDir then st
      else
        let score := mdDirScore s t (toLowerL d.name)
        if st.1 < score ∧ (7/10 : ℚ) < score then (score, some d) else st)
      st = st := by
  induction dirs generalizing st with
  | nil => rfl
  | cons e u ih =>
    simp only [List.foldl_cons]
    have hstep : (if !e.isDir then st
        else
          let score := mdDirScore s t (toLowerL e.name)
          if st.1 < score ∧ (7/10 : ℚ) < score then (score, some e) else st) = st := by
      by_cases he : e.isDir
      · simp only [he, Bool.not_true, Bool.false_eq_true, if_false]
        rw [if_neg]
        intro hcond
        exact absurd (h e (List.mem_cons_self e u) he) (not_le.2 hcond.2)
      · simp only [Bool.not_eq_true] at he
        simp [he]
    rw [hstep]
    exact ih _ (fun d hd => h d (List.mem_cons_of_mem e hd))

/-- C7: the book-to-markdown-directory matcher returns a directory only
when its combined score — the maximum of `direct*0.4 + overlap*0.6` and
`title_only*0.4 + overlap*0.6` — strictly exceeds 0.70; an absent title,
an empty candidate pool, or no candidate clearing the threshold yields
`none` (the embedding is a total function: no exception is possible). -/
theorem C7_markdown_matcher_threshold (title : List Char)
    (author : Option (List Char)) (dirs : List MDirEntry) :
    (title = [] → findMatchingMarkdownBP title author dirs = none) ∧
    (dirs = [] → findMatchingMarkdownBP title author dirs = none) ∧
    (∀ dname fname,
      findMatchingMarkdownBP title author dirs = some (dname, fname) →
      ∃ d ∈ dirs, d.isDir = true ∧ d.name = dname ∧
        (7/10 : ℚ) < mdDirScore (searchTitleOf title author) (toLowerL title)
          (toLowerL d.name)) ∧
    ((∀ d ∈ dirs, d.isDir = true →
        mdDirScore (searchTitleOf title author) (toLowerL title)
          (toLowerL d.name) ≤ 7/10) →
      findMatchingMarkdownBP title author dirs = none) := by
  refine ⟨?_, ?_, ?_, ?_⟩
  · intro h
    simp [findMatchingMarkdownBP, h]
  · intro h
    subst h
    simp [findMatchingMarkdownBP, mdDirBest]
  · intro dname fname hres
    by_cases ht : title = []
    · simp [findMatchingMarkdownBP, ht] at hres
    · simp only [findMatchingMarkdownBP, if_neg ht] at hres
      rcases hb : (mdDirBest (searchTitleOf title author) (toLowerL title) dirs).2
        with _ | d
      · rw [hb] at hres
        simp at hres
      · rw [hb] at hres
        revert hres
        split
        · intro hres
          exact absurd hres (by simp)
        · rename_i x d2 heq
          have hd2 : d2 = d := (Option.some.inj heq).symm
          rw [hd2]
          split
          · intro hres
            have hname : d.name = dname := by
              have h2 := hres
              simp only [Option.some_inj, Prod.mk.injEq] at h2
              exact h2.1
            rcases mdDirBest_some _ _ dirs (0, none) d hb with h | h
            · simp at h
            · exact ⟨d, h.1, h.2.1, hname, h.2.2⟩
          · intro hres
            exact absurd hres (by simp)
  · intro hall
    by_cases ht : title = []
    · simp [findMatchingMarkdownBP, ht]
    · have hb : mdDirBest (searchTitleOf title author) (toLowerL title) dirs =
          (0, none) :=
        mdDirBest_all_below _ _ dirs (0, none) hall
      simp [findMatchingMarkdownBP, ht, hb]

/-- Witness for C7: empty title, empty pool, and a pool whose only entry
is not a directory all yield no match. -/
theorem C7_markdown_matcher_threshold_witness :
    findMatchingMarkdownBP [] none [⟨"x".data, true, []⟩] = none ∧
    findMatchingMarkdownBP "abc".data none [] = none ∧
    findMatchingMarkdownBP "abc".data none [⟨"notadir".data, false, []⟩] = none :=
  ⟨(C7_markdown_matcher_threshold [] none [⟨"x".data, true, []⟩]).1 rfl,
   (C7_markdown_matcher_threshold "abc".data none []).2.1 rfl,
   (C7_markdown_matcher_threshold "abc".data none
      [⟨"notadir".data, false, []⟩]).2.2.2 (by decide)⟩

/-! ## Claim C4: duplicate resolver scoring and threshold -/

/-- The spec-worded combined score of one candidate against the
normalized query title and author. -/
def dupSpecScore (fuzzR : List Char → List Char → ℚ)
    (title author : List Char) (c : DupCandidate) : ℚ :=
  dupCombinedSpec fuzzR (stripL (toLowerL title)) (stripL (toLowerL author))
    (stripL (toLowerL c.title)) (stripL (toLowerL c.author))

theorem dupCombined_cases (fz : List Char → List Char → ℚ)
    (t a et ea : List Char) :
    dupCombinedCode fz t a et ea = dupCombinedSpec fz t a et ea ∨
    (dupCombinedCode fz t a et ea < 85 ∧ dupCombinedSpec fz t a et ea < 85) := by
  unfold dupCombinedCode dupCombinedSpec
  by_cases hea : ea ≠ [] ∧ a ≠ []
  · by_cases hts : (60 : ℚ) < fz t et
    · left
      have hcond : ea ≠ [] ∧ a ≠ [] ∧ 60 < fz t et := ⟨hea.1, hea.2, hts⟩
      simp [hea, hts, hcond]
    · right
      have hle : fz t et ≤ 60 := not_lt.1 hts
      have h95 : ¬(95 : ℚ) < fz t et := by
        intro h
        linarith
      have h90 : ¬(90 : ℚ) < fz t et := by
        intro h
        linarith
      have hcond : ¬(ea ≠ [] ∧ a ≠ [] ∧ 60 < fz t et) := fun h => hts h.2.2
      simp only [hea.1, hea.2, hts, h95, h90, hcond, ne_eq, not_false_iff,
        true_and, and_true, if_true, if_false, ite_false, ite_true]
      constructor <;> first
        | linarith
        | · split
            · linarith
            · linarith
  · left
    have hcond : ¬(ea ≠ [] ∧ a ≠ [] ∧ 60 < fz t et) := fun h => hea ⟨h.1, h.2.1⟩
    simp [hea, hcond]

theorem dupStep_code_eq_spec (fz : List Char → List Char → ℚ)
    (t a : List Char) (st : ℚ × Option (List Char)) (c : DupCandidate) :
    (if stripL (toLowerL c.title) = [] then st
     else if st.1 < dupCombinedCode fz t a (stripL (toLowerL c.title))
           (stripL (toLowerL c.author)) ∧
         (85 : ℚ) ≤ dupCombinedCode fz t a (stripL (toLowerL c.title))
           (stripL (toLowerL c.author)) then
       (dupCombinedCode fz t a (stripL (toLowerL c.title))
         (stripL (toLowerL c.author)), some c.page)
     else st) =
    (if stripL (toLowerL c.title) = [] then st
     else if st.1 < dupCombinedSpec fz t a (stripL (toLowerL c.title))
           (stripL (toLowerL c.author)) ∧
         (85 : ℚ) ≤ dupCombinedSpec fz t a (stripL (toLowerL c.title))
           (stripL (toLowerL c.author)) then
       (dupCombinedSpec fz t a (stripL (toLowerL c.title))
         (stripL (toLowerL c.author)), some c.page)
     else st) := by
  by_cases hv : stripL (toLowerL c.title) = []
  · simp [hv]
  · rcases dupCombined_cases fz t a (stripL (toLowerL c.title))
      (stripL (toLowerL c.author)) with h | h
    · rw [h]
    · rw [if_neg hv, if_neg hv, if_neg, if_neg]
      · intro hcond
        linarith [hcond.2, h.2]
      · intro hcond
        linarith [hcond.2, h.1]

theorem foldl_funext {α β : Type} (f g : β → α → β) (l : List α)
    (h : ∀ st c, f st c = g st c) : ∀ st, l.foldl f st = l.foldl g st := by
  induction l with
  | nil => intro st; rfl
  | cons c u ih =>
    intro st
    simp only [List.foldl_cons, h st c]
    exact ih _

theorem dupFold_code_eq_spec (fz : List Char → List Char → ℚ)
    (t a : List Char) (cands : List DupCandidate) :
    dupFold (fun c => dupCombinedCode fz t a (stripL (toLowerL c.title))
      (stripL (toLowerL c.author))) cands =
    dupFold (fun c => dupCombinedSpec fz t a (stripL (toLowerL c.title))
      (stripL (toLowerL c.author))) cands := by
  unfold dupFold
  exact foldl_funext _ _ cands (fun st c => dupStep_code_eq_spec fz t a st c) _

/-- One step of the resolver's best-candidate fold. -/
def dupFoldStep (score : DupCandidate → ℚ) (st : ℚ × Option (List Char))
    (c : DupCandidate) : ℚ × Option (List Char) :=
  if stripL (toLowerL c.title) = [] then st
  else if st.1 < score c ∧ (85 : ℚ) ≤ score c then (score c, some c.page)
  else st

theorem dupFoldStep_invariant (score : DupCandidate → ℚ)
    (cands : List DupCandidate) : ∀ st,
    (cands.foldl (dupFoldStep score) st = st ∧
      ∀ c ∈ cands, stripL (toLowerL c.title) ≠ [] → 85 ≤ score c →
        score c ≤ st.1) ∨
    (∃ c ∈ cands, stripL (toLowerL c.title) ≠ [] ∧
      (cands.foldl (dupFoldStep score) st).2 = some c.page ∧
      (cands.foldl (dupFoldStep score) st).1 = score c ∧
      85 ≤ score c ∧ st.1 < score c ∧
      ∀ d ∈ cands, stripL (toLowerL d.title) ≠ [] → 85 ≤ score d →
        score d ≤ (cands.foldl (dupFoldStep score) st).1) := by
  induction cands with
  | nil =>
    intro st
    exact Or.inl ⟨rfl, by simp⟩
  | cons c u ih =>
    intro st
    simp only [List.foldl_cons]
    by_cases hv : stripL (toLowerL c.title) = []
    · have hstep : dupFoldStep score st c = st := by simp [dupFoldStep, hv]
      rw [hstep]
      rcases ih st with ⟨heq, hb⟩ | ⟨c2, hmem, hval, h2, h1, h85, hgt, hb⟩
      · left
        refine ⟨heq, ?_⟩
        intro d hd hdv h85d
        rcases List.mem_cons.1 hd with h | h
        · subst h
          exact absurd hv hdv
        · exact hb d h hdv h85d
      · right
        refine ⟨c2, List.mem_cons_of_mem c hmem, hval, h2, h1, h85, hgt, ?_⟩
        intro d hd hdv h85d
        rcases List.mem_cons.1 hd with h | h
        · subst h
          exact absurd hv hdv
        · exact hb d h hdv h85d
    · by_cases hc : st.1 < score c ∧ (85 : ℚ) ≤ score c
      · have hstep : dupFoldStep score st c = (score c, some c.page) := by
          simp [dupFoldStep, hv, hc]
        rw [hstep]
        rcases ih (score c, some c.page) with ⟨heq, hb⟩ |
          ⟨c2, hmem, hval, h2, h1, h85, hgt, hb⟩
        · right
          refine ⟨c, List.mem_cons_self c u, hv, ?_, ?_, hc.2, hc.1, ?_⟩
          · rw [heq]
          · rw [heq]
          · intro d hd hdv h85d
            rcases List.mem_cons.1 hd with h | h
            · subst h
              rw [heq]
            · have hle := hb d h hdv h85d
              rw [heq]
              simpa using hle
        · right
          have hcc2 : score c < score c2 := by simpa using hgt
          refine ⟨c2, List.mem_cons_of_mem c hmem, hval, h2, h1, h85, ?_, ?_⟩
          · linarith [hc.1]
          · intro d hd hdv h85d
            rcases List.mem_cons.1 hd with h | h
            · subst h
              rw [h1]
              linarith
            · exact hb d h hdv h85d
      · have hstep : dupFoldStep score st c = st := by
          simp only [dupFoldStep, if_neg hv]
          rw [if_neg hc]
        rw [hstep]
        have hcle : stripL (toLowerL c.title) ≠ [] → 85 ≤ score c →
            score c ≤ st.1 := by
          intro _ h85d
          by_contra hlt
          exact hc ⟨lt_of_not_le hlt, h85d⟩
        rcases ih st with ⟨heq, hb⟩ | ⟨c2, hmem, hval, h2, h1, h85, hgt, hb⟩
        · left
          refine ⟨heq, ?_⟩
          intro d hd hdv h85d
          rcases List.mem_cons.1 hd with h | h
          · subst h
            exact hcle hdv h85d
          · exact hb d h hdv h85d
        · right
          refine ⟨c2, List.mem_cons_of_mem c hmem, hval, h2, h1, h85, hgt, ?_⟩
          intro d hd hdv h85d
          rcases List.mem_cons.1 hd with h | h
          · subst h
            have hds : score d ≤ st.1 := hcle hdv h85d
            rw [h1]
            linarith
          · exact hb d h hdv h85d

/-- C4: the duplicate resolver's behaviour coincides with the spec's
combining rule (`title*0.7 + author*0.3` when both authors are present
and title similarity exceeds 60, title-only gated at 90 otherwise, boost
to at least `title*0.9` above 95): a duplicate is reported exactly when
some candidate's combined score reaches 85, and the reported landing page
belongs to a candidate of maximal combined score. -/
theorem C4_duplicate_resolver (fz : List Char → List Char → ℚ)
    (title author : List Char) (cands : List DupCandidate) :
    (findDuplicateByMetadata fz title author cands =
      findDuplicateSpec fz title author cands) ∧
    (title ≠ [] → author ≠ [] →
      ((∃ c ∈ cands, stripL (toLowerL c.title) ≠ [] ∧
          85 ≤ dupSpecScore fz title author c) ↔
        (findDuplicateByMetadata fz title author cands).isSome)) ∧
    (∀ p, findDuplicateByMetadata fz title author cands = some p →
      ∃ c ∈ cands, stripL (toLowerL c.title) ≠ [] ∧ c.page = p ∧
        85 ≤ dupSpecScore fz title author c ∧
        ∀ d ∈ cands, stripL (toLowerL d.title) ≠ [] →
          85 ≤ dupSpecScore fz title author d →
          dupSpecScore fz title author d ≤ dupSpecScore fz title author c) := by
  have heq : findDuplicateByMetadata fz title author cands =
      findDuplicateSpec fz title author cands := by
    unfold findDuplicateByMetadata findDuplicateSpec
    by_cases hg : title = [] ∨ author = [] ∨ cands = []
    · rw [if_pos hg, if_pos hg]
    · rw [if_neg hg, if_neg hg]
      exact congrArg Prod.snd (dupFold_code_eq_spec fz
        (stripL (toLowerL title)) (stripL (toLowerL author)) cands)
  have hfold : findDuplicateSpec fz title author cands =
      (if title = [] ∨ author = [] ∨ cands = [] then none
       else (cands.foldl (dupFoldStep (dupSpecScore fz title author))
         (0, none)).2) := rfl
  have hmain : ∀ p, findDuplicateByMetadata fz title author cands = some p →
      ∃ c ∈ cands, stripL (toLowerL c.title) ≠ [] ∧ c.page = p ∧
        85 ≤ dupSpecScore fz title author c ∧
        ∀ d ∈ cands, stripL (toLowerL d.title) ≠ [] →
          85 ≤ dupSpecScore fz title author d →
          dupSpecScore fz title author d ≤ dupSpecScore fz title author c := by
    intro p hp
    rw [heq, hfold] at hp
    by_cases hg : title = [] ∨ author = [] ∨ cands = []
    · rw [if_pos hg] at hp
      simp at hp
    · rw [if_neg hg] at hp
      rcases dupFoldStep_invariant (dupSpecScore fz title author) cands (0, none)
        with ⟨heq2, _⟩ | ⟨c2, hmem, hval, h2, h1, h85, _, hb⟩
      · rw [heq2] at hp
        simp at hp
      · rw [h2] at hp
        refine ⟨c2, hmem, hval, Option.some.inj hp, h85, ?_⟩
        intro d hd hdv h85d
        have := hb d hd hdv h85d
        rw [h1] at this
        exact this
  refine ⟨heq, ?_, hmain⟩
  intro ht ha
  constructor
  · rintro ⟨c, hmem, hval, h85⟩
    have hne : cands ≠ [] := by
      intro h
      subst h
      simp at hmem
    have hg : ¬(title = [] ∨ author = [] ∨ cands = []) := by
      simp [ht, ha, hne]
    rw [heq, hfold, if_neg hg]
    rcases dupFoldStep_invariant (dupSpecScore fz title author) cands (0, none)
      with ⟨_, hb⟩ | ⟨c2, _, _, h2, _, _, _, _⟩
    · have := hb c hmem hval h85
      simp only at this
      linarith
    · rw [h2]
      rfl
  · intro hsome
    rcases hres : findDuplicateByMetadata fz title author cands with _ | p
    · rw [hres] at hsome
      simp at hsome
    · obtain ⟨c, hmem, hval, _, h85, _⟩ := hmain p hres
      exact ⟨c, hmem, hval, h85⟩

/-- Witness for C4: with the constant-0 external scorer the code and spec
resolvers agree, and the reported-duplicate equivalence holds on a
one-candidate pool. -/
theorem C4_duplicate_resolver_witness :
    (findDuplicateByMetadata (fun _ _ => 0) "x".data "y".data
      [⟨"t".data, "u".data, "p".data⟩] =
     findDuplicateSpec (fun _ _ => 0) "x".data "y".data
      [⟨"t".data, "u".data, "p".data⟩]) ∧
    ((∃ c ∈ [(⟨"t".data, "u".data, "p".data⟩ : DupCandidate)],
        stripL (toLowerL c.title) ≠ [] ∧
        85 ≤ dupSpecScore (fun _ _ => 0) "x".data "y".data c) ↔
      (findDuplicateByMetadata (fun _ _ => 0) "x".data "y".data
        [⟨"t".data, "u".data, "p".data⟩]).isSome) :=
  ⟨(C4_duplicate_resolver (fun _ _ => 0) "x".data "y".data
      [⟨"t".data, "u".data, "p".data⟩]).1,
   (C4_duplicate_resolver (fun _ _ => 0) "x".data "y".data
      [⟨"t".data, "u".data, "p".data⟩]).2.1 (by decide) (by decide)⟩

/-! ## Claim C3: exact-then-fuzzy text location -/

theorem enumFrom_cons_eq (n : Nat) (a : List Char) (l : List (List Char)) :
    (a :: l).enumFrom n = (n, a) :: l.enumFrom (n + 1) := rfl

theorem enumFromFind_some (p : List Char → Bool) (ls : List (List Char)) :
    ∀ (n : Nat) (i : Nat) (line : List Char),
      (ls.enumFrom n).find? (fun q => p q.2) = some (i, line) →
      n ≤ i ∧ i - n < ls.length ∧ ls.getD (i - n) [] = line ∧ p line = true ∧
        ∀ j < i - n, p (ls.getD j []) = false := by
  induction ls with
  | nil =>
    intro n i line h
    simp [List.enumFrom] at h
  | cons x t ih =>
    intro n i line h
    rw [enumFrom_cons_eq] at h
    by_cases hx : p x
    · rw [List.find?_cons_of_pos _ (by simpa using hx)] at h
      obtain ⟨h1, h2⟩ : n = i ∧ x = line := by
        have := Option.some.inj h
        exact ⟨congrArg Prod.fst this, congrArg Prod.snd this⟩
      subst h1
      subst h2
      exact ⟨le_refl n, by simp, by simp, hx, by simp⟩
    · rw [List.find?_cons_of_neg _ (by simpa using hx)] at h
      obtain ⟨ha, hb, hc, hd, he⟩ := ih (n + 1) i line h
      have hin : 1 ≤ i - n := by omega
      refine ⟨by omega, by simp; omega, ?_, hd, ?_⟩
      · have : i - n = (i - (n + 1)) + 1 := by omega
        rw [this]
        simpa using hc
      · intro j hj
        cases j with
        | zero => simpa using hx
        | succ k =>
          have : k < i - (n + 1) := by omega
          simpa using he k this

theorem enumFromFind_none (p : List Char → Bool) (ls : List (List Char)) :
    ∀ (n : Nat), (ls.enumFrom n).find? (fun q => p q.2) = none →
      ∀ j < ls.length, p (ls.getD j []) = false := by
  induction ls with
  | nil =>
    intro n _ j hj
    simp at hj
  | cons x t ih =>
    intro n h j hj
    rw [enumFrom_cons_eq] at h
    by_cases hx : p x
    · rw [List.find?_cons_of_pos _ (by simpa using hx)] at h
      simp at h
    · rw [List.find?_cons_of_neg _ (by simpa using hx)] at h
      cases j with
      | zero => simpa using hx
      | succ k =>
        have : k < t.length := by simpa using hj
        simpa using ih (n + 1) h k this

theorem fuzzyFold_invariant (main : List Char) (ls : List (List Char)) :
    ∀ (n : Nat) (st : ℚ × Option (Nat × List Char)),
      (ls.enumFrom n).foldl (fun st p =>
        if p.2.length < 10 then st
        else
          let r := lineScore main p.2
          if st.1 < r then (r, some (p.1, p.2)) else st) st = st ∨
      ∃ i line, (ls.enumFrom n).foldl (fun st p =>
          if p.2.length < 10 then st
          else
            let r := lineScore main p.2
            if st.1 < r then (r, some (p.1, p.2)) else st) st =
          (lineScore main line, some (i, line)) ∧
        n ≤ i ∧ i - n < ls.length ∧ ls.getD (i - n) [] = line ∧
        ¬(line.length < 10) ∧ st.1 < lineScore main line := by
  induction ls with
  | nil =>
    intro n st
    exact Or.inl rfl
  | cons x t ih =>
    intro n st
    rw [enumFrom_cons_eq]
    simp only [List.foldl_cons]
    by_cases hx : x.length < 10
    · have hstep : (if x.length < 10 then st
          else
            let r := lineScore main x
            if st.1 < r then (r, some (n, x)) else st) = st := by
        rw [if_pos hx]
      rw [hstep]
      rcases ih (n + 1) st with h | ⟨i, line, hfold, hni, hlt, hget, hlen, hsc⟩
      · exact Or.inl h
      · right
        refine ⟨i, line, hfold, by omega, by simp; omega, ?_, hlen, hsc⟩
        have : i - n = (i - (n + 1)) + 1 := by omega
        rw [this]
        simpa using hget
    · by_cases hup : st.1 < lineScore main x
      · have hstep : (if x.length < 10 then st
            else
              let r := lineScore main x
              if st.1 < r then (r, some (n, x)) else st) =
            (lineScore main x, some (n, x)) := by
          rw [if_neg hx]
          simp only [if_pos hup]
        rw [hstep]
        rcases ih (n + 1) (lineScore main x, some (n, x)) with h |
          ⟨i, line, hfold, hni, hlt, hget, hlen, hsc⟩
        · right
          exact ⟨n, x, h, le_refl n, by simp, by simp, hx, hup⟩
        · right
          have hsc2 : st.1 < lineScore main line := by
            have : (lineScore main x, some (n, x)).1 < lineScore main line := hsc
            simp only at this
            linarith
          refine ⟨i, line, hfold, by omega, by simp; omega, ?_, hlen, hsc2⟩
          have : i - n = (i - (n + 1)) + 1 := by omega
          rw [this]
          simpa using hget
      · have hstep : (if x.length < 10 then st
            else
              let r := lineScore main x
              if st.1 < r then (r, some (n, x)) else st) = st := by
          rw [if_neg hx]
          simp only [if_neg hup]
        rw [hstep]
        rcases ih (n + 1) st with h | ⟨i, line, hfold, hni, hlt, hget, hlen, hsc⟩
        · exact Or.inl h
        · right
          refine ⟨i, line, hfold, by omega, by simp; omega, ?_, hlen, hsc⟩
          have : i - n = (i - (n + 1)) + 1 := by omega
          rw [this]
          simpa using hget

/-- C3: the text locator returns the first markdown-stripped line that
contains the stripped excerpt verbatim; otherwise it returns a line only
if that clean line is at least 10 characters long and its fuzzy score
against the excerpt's first line (with the word-chunk substring
alternative) strictly exceeds 0.8; when no line qualifies under either
path, or an input is empty, the result is `none`. -/
theorem C3_find_text_in_markdown (searchText content : List Char) :
    (searchText ≠ [] → content ≠ [] →
      ∀ i, i < (splitNl (removeMd content)).length →
        containsSub ((splitNl (removeMd content)).getD i [])
          (stripL searchText) = true →
        ∃ i0 ctx, findTextInMarkdown searchText content =
            some (i0, (splitNl content).getD i0 [], ctx) ∧ i0 ≤ i ∧
          containsSub ((splitNl (removeMd content)).getD i0 [])
            (stripL searchText) = true ∧
          ∀ j < i0, containsSub ((splitNl (removeMd content)).getD j [])
            (stripL searchText) = false) ∧
    (∀ i line ctx, findTextInMarkdown searchText content = some (i, line, ctx) →
      (∀ j < (splitNl (removeMd content)).length,
        containsSub ((splitNl (removeMd content)).getD j [])
          (stripL searchText) = false) →
      ¬((splitNl (removeMd content)).getD i []).length < 10 ∧
      (4/5 : ℚ) < lineScore ((splitNl (stripL searchText)).headI)
        ((splitNl (removeMd content)).getD i []) ∧
      line = (splitNl content).getD i []) ∧
    ((∀ j < (splitNl (removeMd content)).length,
        containsSub ((splitNl (removeMd content)).getD j [])
          (stripL searchText) = false) →
      (∀ j < (splitNl (removeMd content)).length,
        ¬((splitNl (removeMd content)).getD j []).length < 10 →
        lineScore ((splitNl (stripL searchText)).headI)
          ((splitNl (removeMd content)).getD j []) ≤ 4/5) →
      findTextInMarkdown searchText content = none) ∧
    (searchText = [] ∨ content = [] →
      findTextInMarkdown searchText content = none) := by
  have hfb_eq : fuzzyBest ((splitNl (stripL searchText)).headI)
      (splitNl (removeMd content)) =
      ((splitNl (removeMd content)).enumFrom 0).foldl (fun st p =>
        if p.2.length < 10 then st
        else
          let r := lineScore ((splitNl (stripL searchText)).headI) p.2
          if st.1 < r then (r, some (p.1, p.2)) else st) ((4/5 : ℚ), none) := rfl
  refine ⟨?_, ?_, ?_, ?_⟩
  · intro hs hc i hi hcont
    have hg : ¬(searchText = [] ∨ content = []) := by simp [hs, hc]
    rcases hfind : (splitNl (removeMd content)).enum.find?
        (fun p => containsSub p.2 (stripL searchText)) with _ | pr
    · have hall := enumFromFind_none
        (fun line => containsSub line (stripL searchText))
        (splitNl (removeMd content)) 0 hfind
      have hfalse := hall i hi
      simp only [hcont] at hfalse
      exact absurd hfalse (by simp)
    · rcases pr with ⟨i0, line0⟩
      obtain ⟨-, hlt, hget, hp, hmin⟩ := enumFromFind_some
        (fun line => containsSub line (stripL searchText))
        (splitNl (removeMd content)) 0 i0 line0 hfind
      simp only [Nat.sub_zero] at hlt hget hmin
      refine ⟨i0,
        ⟨if 0 < i0 then (splitNl (removeMd content)).getD (i0 - 1) [] else [],
         line0,
         if i0 < (splitNl (removeMd content)).length - 1 then
           (splitNl (removeMd content)).getD (i0 + 1) [] else [],
         none⟩, ?_, ?_, ?_, ?_⟩
      · simp only [findTextInMarkdown]
        rw [if_neg hg, hfind]
      · by_contra hgt
        have hi0 : i < i0 := by omega
        have hfalse := hmin i hi0
        simp only [hcont] at hfalse
        exact absurd hfalse (by simp)
      · rw [hget]
        exact hp
      · intro j hj
        exact hmin j hj
  · intro i line ctx hres hall
    by_cases hg : searchText = [] ∨ content = []
    · have : findTextInMarkdown searchText content = none := by
        simp [findTextInMarkdown, hg]
      rw [this] at hres
      simp at hres
    · simp only [findTextInMarkdown] at hres
      rw [if_neg hg] at hres
      split at hres
      · rename_i i1 line1 heq
        obtain ⟨-, hlt, hget, hp, -⟩ := enumFromFind_some
          (fun line => containsSub line (stripL searchText))
          (splitNl (removeMd content)) 0 i1 line1 heq
        simp only [Nat.sub_zero] at hlt hget
        have := hall i1 hlt
        rw [hget] at this
        rw [this] at hp
        simp at hp
      · split at hres
        · rename_i i2 line2 heq2
          have hinj := Option.some.inj hres
          have hii : i2 = i := congrArg Prod.fst hinj
          have hline : (splitNl content).getD i2 [] = line :=
            congrArg (fun t => t.2.1) hinj
          rcases fuzzyFold_invariant ((splitNl (stripL searchText)).headI)
            (splitNl (removeMd content)) 0 ((4/5 : ℚ), none) with h |
            ⟨i3, line3, hfold, -, hlt3, hget3, hlen3, hsc3⟩
          · rw [hfb_eq, h] at heq2
            simp at heq2
          · rw [hfb_eq, hfold] at heq2
            have hinj2 := Option.some.inj heq2
            have hi3 : i3 = i2 := congrArg Prod.fst hinj2
            have hl3 : line3 = line2 := congrArg Prod.snd hinj2
            simp only [Nat.sub_zero] at hlt3 hget3
            subst hi3
            subst hl3
            subst hii
            rw [hget3]
            exact ⟨hlen3, by simpa using hsc3, hline.symm⟩
        · simp at hres
  · intro hall hbelow
    by_cases hg : searchText = [] ∨ content = []
    · simp [findTextInMarkdown, hg]
    · simp only [findTextInMarkdown]
      rw [if_neg hg]
      rcases hfind : (splitNl (removeMd content)).enum.find?
          (fun p => containsSub p.2 (stripL searchText)) with _ | pr
      · rw [hfind]
        rcases fuzzyFold_invariant ((splitNl (stripL searchText)).headI)
          (splitNl (removeMd content)) 0 ((4/5 : ℚ), none) with h |
          ⟨i3, line3, hfold, -, hlt3, hget3, hlen3, hsc3⟩
        · have hnone : (fuzzyBest ((splitNl (stripL searchText)).headI)
              (splitNl (removeMd content))).2 = none := by
            rw [hfb_eq, h]
          rw [hnone]
        · exfalso
          simp only [Nat.sub_zero] at hlt3 hget3
          have hb := hbelow i3 hlt3 (by rw [hget3]; exact hlen3)
          rw [hget3] at hb
          have h45 : (4/5 : ℚ) < lineScore ((splitNl (stripL searchText)).headI)
              line3 := by simpa using hsc3
          linarith
      · rcases pr with ⟨i1, line1⟩
        obtain ⟨-, hlt, hget, hp, -⟩ := enumFromFind_some
          (fun line => containsSub line (stripL searchText))
          (splitNl (removeMd content)) 0 i1 line1 hfind
        simp only [Nat.sub_zero] at hlt hget
        have := hall i1 hlt
        rw [hget] at this
        rw [this] at hp
        simp at hp
  · intro h
    simp [findTextInMarkdown, h]

/-- Witness for C3: the excerpt about the motorcycle is located by the
exact-substring path at line 2 of a markdown body; an excerpt absent from
a short body yields `none`. -/
theorem C3_find_text_in_markdown_witness :
    (∃ i0 ctx, findTextInMarkdown
        "the motorcycle made the turn without unseating".data
        "# Title\n\n*however, the motorcycle made the turn without unseating either of its riders*".data =
        some (i0, (splitNl "# Title\n\n*however, the motorcycle made the turn without unseating either of its riders*".data).getD i0 [], ctx) ∧
      i0 ≤ 2 ∧
      containsSub ((splitNl (removeMd "# Title\n\n*however, the motorcycle made the turn without unseating either of its riders*".data)).getD i0 [])
        (stripL "the motorcycle made the turn without unseating".data) = true ∧
      ∀ j < i0, containsSub ((splitNl (removeMd "# Title\n\n*however, the motorcycle made the turn without unseating either of its riders*".data)).getD j [])
        (stripL "the motorcycle made the turn without unseating".data) = false) ∧
    findTextInMarkdown "zz".data [] = none :=
  ⟨(C3_find_text_in_markdown
      "the motorcycle made the turn without unseating".data
      "# Title\n\n*however, the motorcycle made the turn without unseating either of its riders*".data).1
      (by decide) (by decide) 2 (by decide) (by decide),
   (C3_find_text_in_markdown "zz".data []).2.2.2 (by decide)⟩

/-! ## Claims C8 and C9: the combined similarity scorer -/

theorem commonRunLen_self (l : List Char) : commonRunLen l l = l.length := by
  induction l with
  | nil => rfl
  | cons c t ih => simp [commonRunLen, ih]

theorem matchingBlocksAux_nil (a b : List Char) (fuel alo blo : Nat) :
    matchingBlocksAux a b fuel alo alo blo blo = [] := by
  cases fuel with
  | zero => rfl
  | succ n => simp [matchingBlocksAux, findLongestMatch]

theorem findLongestMatch_self (l : List Char) (h : l ≠ []) :
    findLongestMatch l l 0 l.length 0 l.length = (0, 0, l.length) := by
  obtain ⟨m, hm⟩ : ∃ m, l.length = m + 1 := by
    cases l with
    | nil => exact absurd rfl h
    | cons c t => exact ⟨t.length, rfl⟩
  have hrun : commonRunLen (l.drop 0) (l.drop 0) = m + 1 := by
    rw [List.drop_zero, commonRunLen_self, hm]
  simp only [findLongestMatch, Nat.sub_zero, Nat.zero_add, hm]
  rw [List.range_succ_eq_map, List.foldl_cons, List.foldl_cons, hrun]
  simp only [Nat.sub_zero, min_self]
  rw [if_pos (Nat.succ_pos m)]
  refine Eq.trans (congrArg (fun z => List.foldl _ z (List.map Nat.succ (List.range m)))
    (foldl_const ?h1 _)) (foldl_const ?h2 _)
  case h1 =>
    intro dj
    exact if_neg (Nat.not_lt.mpr (le_trans (min_le_right _ _) (min_le_left _ _)))
  case h2 =>
    intro di
    refine foldl_const ?_ _
    intro dj
    exact if_neg (Nat.not_lt.mpr (le_trans (min_le_right _ _)
      (le_trans (min_le_left _ _) (Nat.sub_le _ _))))

theorem getMatchingBlocks_self (l : List Char) (h : l ≠ []) :
    getMatchingBlocks l l = [(0, 0, l.length), (l.length, l.length, 0)] := by
  have hflm := findLongestMatch_self l h
  have hlen : l.length ≠ 0 := by
    cases l with
    | nil => exact absurd rfl h
    | cons c t => simp
  simp only [getMatchingBlocks, matchingBlocksAux, hflm, Nat.zero_add]
  rw [if_neg hlen, matchingBlocksAux_nil, matchingBlocksAux_nil]
  simp

theorem sequenceRatio_self (l : List Char) : sequenceRatio l l = 1 := by
  by_cases hl : l = []
  · subst hl; rfl
  · have hg := getMatchingBlocks_self l hl
    simp only [sequenceRatio, hg, List.map_cons, List.map_nil, List.sum_cons,
      List.sum_nil]
    have hlen : l.length ≠ 0 := fun hc => hl (List.length_eq_zero.mp hc)
    rw [if_neg (by omega)]
    have h0 : ((l.length + l.length : ℕ) : ℚ) ≠ 0 := by
      rw [Nat.cast_ne_zero]; omega
    rw [div_eq_one_iff_eq h0]
    push_cast
    ring

theorem wordSetOverlap_self (ws : List (List Char)) (h : ws.dedup ≠ []) :
    wordSetOverlap ws ws = 1 := by
  have hfil : ws.dedup.filter (fun w => w ∈ ws.dedup) = ws.dedup := by
    apply List.filter_eq_self.mpr
    intro a ha
    simp [ha]
  have hlen : (ws.dedup.length : ℚ) ≠ 0 := by
    rw [Nat.cast_ne_zero]
    simpa using h
  simp only [wordSetOverlap, hfil, max_self]
  rw [if_pos ⟨h, h⟩]
  exact div_self hlen

theorem sequenceRatio_eval (x y : List Char) (m t : Nat)
    (hm : ((getMatchingBlocks x y).map (fun p => p.2.2)).sum = m)
    (ht : x.length + y.length = t) (h0 : t ≠ 0) :
    sequenceRatio x y = (2 * m : ℚ) / t := by
  simp only [sequenceRatio, hm, ht]
  rw [if_neg h0]

theorem wordSetOverlap_eval (ws1 ws2 : List (List Char)) (a b : Nat)
    (h1 : ws1.dedup ≠ []) (h2 : ws2.dedup ≠ [])
    (ha : (ws1.dedup.filter (fun w => w ∈ ws2.dedup)).length = a)
    (hb : max ws1.dedup.length ws2.dedup.length = b) :
    wordSetOverlap ws1 ws2 = (a : ℚ) / b := by
  simp only [wordSetOverlap, ha, hb]
  rw [if_pos ⟨h1, h2⟩]

/-- C9 counterexample: `_calculate_similarity` is not reflexive on every
string — a punctuation-only string normalizes to empty, its
`SequenceMatcher` ratio is the empty-versus-empty `1.0` while its word
overlap is `0`, so the self-score is `0.5`, not `1.0`. -/
theorem C9_score_not_reflexive :
    calculateSimilarity "!!!".data "!!!".data ≠ 1 := by
  have h1 : cleanForSim "!!!".data = [] := by decide
  have h2 : ¬("!!!".data = ([] : List Char) ∨ "!!!".data = ([] : List Char)) := by
    decide
  simp only [calculateSimilarity, h1]
  rw [if_neg h2]
  have hs : sequenceRatio [] [] = 1 := rfl
  have hw : wordSetOverlap (splitWs []) (splitWs []) = 0 := rfl
  rw [hs, hw]
  norm_num

/-- C9 (amended): the similarity scorer is reflexive on every string whose
normalization (lowercasing, punctuation stripping) still contains at least
one word token — for such `s` both the `SequenceMatcher` ratio and the
word-set overlap of `s` against itself are `1`, so
`_calculate_similarity(s, s) = 1.0`. -/
theorem C9_self_similarity (s : List Char) (h : splitWs (cleanForSim s) ≠ []) :
    calculateSimilarity s s = 1 := by
  have hs : s ≠ [] := by
    intro he
    apply h
    rw [he]
    rfl
  have hd : (splitWs (cleanForSim s)).dedup ≠ [] := by
    rw [Ne, List.dedup_eq_nil]
    exact h
  simp only [calculateSimilarity]
  rw [if_neg (fun hc => hc.elim hs hs)]
  rw [sequenceRatio_self, wordSetOverlap_self _ hd]
  norm_num

theorem C9_self_similarity_witness :
    splitWs (cleanForSim "dune".data) ≠ [] ∧
    calculateSimilarity "dune".data "dune".data = 1 :=
  ⟨by decide, C9_self_similarity "dune".data (by decide)⟩

/-- C8 counterexample: the combined score is not the claimed
`0.4 * char_ratio + 0.6 * word_overlap` blend — on `"a b"` vs `"a c"` the
code returns `(2/3 + 1/2) / 2 = 7/12` while the claimed blend would give
`0.4 * 2/3 + 0.6 * 1/2 = 17/30`. -/
theorem C8_weighted_blend_counterexample :
    calculateSimilarity "a b".data "a c".data ≠
      2/5 * charRatioComponent "a b".data "a c".data +
      3/5 * wordOverlapComponent "a b".data "a c".data := by
  have hseq : sequenceRatio (cleanForSim "a b".data) (cleanForSim "a c".data) =
      (2 * 2 : ℚ) / 6 :=
    sequenceRatio_eval _ _ 2 6 (by decide) (by decide) (by decide)
  have hword : wordSetOverlap (splitWs (cleanForSim "a b".data))
      (splitWs (cleanForSim "a c".data)) = ((1 : ℕ) : ℚ) / 2 :=
    wordSetOverlap_eval _ _ 1 2 (by decide) (by decide) (by decide) (by decide)
  have hcs : calculateSimilarity "a b".data "a c".data = 7/12 := by
    simp only [calculateSimilarity]
    rw [if_neg (by decide :
      ¬("a b".data = ([] : List Char) ∨ "a c".data = ([] : List Char)))]
    rw [hseq, hword]
    norm_num
  have hchar : charRatioComponent "a b".data "a c".data = 2/3 := by
    simp only [charRatioComponent]
    rw [hseq]
    norm_num
  have hwc : wordOverlapComponent "a b".data "a c".data = 1/2 := by
    simp only [wordOverlapComponent]
    rw [hword]
    norm_num
  rw [hcs, hchar, hwc]
  norm_num

/-- C8 (amended): for every pair of non-empty strings the combined
similarity score is the unweighted average
`(char_ratio + word_overlap) / 2` of the character-ratio and word-overlap
components of the normalized strings (the code weights them equally, not
`0.4`/`0.6`). -/
theorem C8_combined_score (s1 s2 : List Char) (h1 : s1 ≠ []) (h2 : s2 ≠ []) :
    calculateSimilarity s1 s2 =
      (charRatioComponent s1 s2 + wordOverlapComponent s1 s2) / 2 := by
  simp only [calculateSimilarity, charRatioComponent, wordOverlapComponent]
  rw [if_neg (fun hc => hc.elim h1 h2)]

theorem C8_combined_score_witness :
    ("x".data ≠ ([] : List Char)) ∧ ("y".data ≠ ([] : List Char)) ∧
    calculateSimilarity "x".data "y".data =
      (charRatioComponent "x".data "y".data +
        wordOverlapComponent "x".data "y".data) / 2 :=
  ⟨by decide, by decide, C8_combined_score "x".data "y".data (by decide) (by decide)⟩

end ReaderStudio
